import Mathlib

/-!
Verification of the SubScrubber subtitle sanitizer (src/subscrub.py).

The program is embedded shallowly: Python strings become `List Char`,
bytes become `List (Fin 256)`, and the two core functions `try_decode`
and `sanitize` are translated statement by statement.  Python semantics
used by the source and mirrored here:

* `str.isspace` / the regex class `\s` match exactly the Unicode
  whitespace code points 09-0D, 1C-1F, 20, 85, A0, 1680, 2000-200A,
  2028, 2029, 202F, 205F, 3000 (`pyIsSpace`).
* `str.splitlines` splits on 0A, 0B, 0C, 0D, 1C, 1D, 1E, 85, 2028,
  2029, treating the pair 0D 0A as a single break, and does not emit a
  final empty line after a trailing break (`splitlines`).
* `str.rstrip()` removes trailing `pyIsSpace` characters (`rstrip`).
* `str.replace` with a single-character pattern is a character map
  (stage 1) or a character filter when the replacement is empty
  (stage 2); with the three-character mojibake keys it is the
  left-to-right non-overlapping rewrite `replace3`, and `str.count`
  the matching non-overlapping count `count3`.
* `re.subn(r"â€(?=$|\s|[)\]\}\"'».,!?;:])", ...)` scans left to right;
  `$` also matches just before a trailing 0A, which is subsumed by the
  `\s` alternative, so the lookahead holds exactly when the rest is
  empty or starts with whitespace or a closing character (`subnTrunc`).
* `re.sub(r"Â(?=\s)", "", ...)` deletes each U+00C2 whose
  immediate successor is whitespace (`strayScan`).
* The `counts` dict preserves insertion order and every label written
  during one `sanitize` call is distinct, so the change log is embedded
  as an ordered list of (label, count) pairs appended stage by stage.
* `hex(n)` is "0x" followed by the lowercase hexadecimal digits.
-/

namespace SubScrub

/-- Unicode whitespace exactly as Python `str.isspace` and the regex class
matches it (the source relies on both). -/
def pyIsSpace (c : Char) : Bool :=
  (9 ≤ c.toNat && c.toNat ≤ 13) || (28 ≤ c.toNat && c.toNat ≤ 31) ||
  c.toNat == 32 || c.toNat == 0x85 || c.toNat == 0xA0 || c.toNat == 0x1680 ||
  (0x2000 ≤ c.toNat && c.toNat ≤ 0x200A) || c.toNat == 0x2028 ||
  c.toNat == 0x2029 || c.toNat == 0x202F || c.toNat == 0x205F || c.toNat == 0x3000

/-- Line boundaries recognized by Python `str.splitlines` (the pair CR LF is
handled separately in `slAux`). -/
def isLineBreak (c : Char) : Bool :=
  (10 ≤ c.toNat && c.toNat ≤ 13) || (28 ≤ c.toNat && c.toNat ≤ 30) ||
  c.toNat == 0x85 || c.toNat == 0x2028 || c.toNat == 0x2029

/-- First character of the corrupted sequences: U+00E2. -/
def aHat : Char := Char.ofNat 0xE2

/-- Second character of the corrupted sequences: U+20AC. -/
def euro : Char := Char.ofNat 0x20AC

/-- The stray marker character of the source: U+00C2. -/
def strayMark : Char := Char.ofNat 0xC2

/-- Ordinary double quote U+0022. -/
def dquote : Char := Char.ofNat 34

/-- Ordinary apostrophe U+0027. -/
def squote : Char := Char.ofNat 39

/-- One-character string holding `squote`. -/
def sq : String := String.singleton squote

/-- One-character string holding `dquote`. -/
def dqs : String := String.singleton dquote

/-- Python `hex`: "0x" plus lowercase hexadecimal digits. -/
def hexStr (n : Nat) : String := "0x" ++ String.mk (Nat.toDigits 16 n)

/-- SPACE_SUBS table of src/subscrub.py: exotic space characters, each
replaced by an ordinary space. -/
def SPACE_SUBS : List (Char × Char) :=
  [(Char.ofNat 0xA0, ' '), (Char.ofNat 0x202F, ' '), (Char.ofNat 0x2007, ' '),
   (Char.ofNat 0x2008, ' '), (Char.ofNat 0x2009, ' '), (Char.ofNat 0x200A, ' ')]

/-- REMOVE_CHARS table of src/subscrub.py: zero-width and BOM characters. -/
def REMOVE_CHARS : List Char :=
  [Char.ofNat 0x200B, Char.ofNat 0x200C, Char.ofNat 0x200D, Char.ofNat 0xFEFF]

/-- One entry of MOJIBAKE_REMAP: the three characters of the corrupted
sequence, the replacement, and the change-log label the Python f-string
`f"mojibake {bad!r} -> {good!r}"` produces for the entry (precomputed here,
with U+009D rendered by `repr` as backslash x9d). -/
structure MojRule where
  k1 : Char
  k2 : Char
  k3 : Char
  rep : List Char
  label : String

/-- MOJIBAKE_REMAP of src/subscrub.py, in source order.  Every key is
U+00E2 U+20AC followed by one further character. -/
def MOJIBAKE_REMAP : List MojRule :=
  [⟨aHat, euro, Char.ofNat 0x2122, [squote],
    "mojibake " ++ sq ++ String.mk [aHat, euro, Char.ofNat 0x2122] ++ sq ++ " -> " ++ dqs ++ sq ++ dqs⟩,
   ⟨aHat, euro, Char.ofNat 0x02DC, [squote],
    "mojibake " ++ sq ++ String.mk [aHat, euro, Char.ofNat 0x02DC] ++ sq ++ " -> " ++ dqs ++ sq ++ dqs⟩,
   ⟨aHat, euro, Char.ofNat 0x0153, [dquote],
    "mojibake " ++ sq ++ String.mk [aHat, euro, Char.ofNat 0x0153] ++ sq ++ " -> " ++ sq ++ dqs ++ sq⟩,
   ⟨aHat, euro, Char.ofNat 0x9D, [dquote],
    "mojibake " ++ sq ++ String.mk [aHat, euro] ++ "\\x9d" ++ sq ++ " -> " ++ sq ++ dqs ++ sq⟩,
   ⟨aHat, euro, Char.ofNat 0x201C, ['-'],
    "mojibake " ++ sq ++ String.mk [aHat, euro, Char.ofNat 0x201C] ++ sq ++ " -> " ++ sq ++ "-" ++ sq⟩,
   ⟨aHat, euro, Char.ofNat 0x201D, ['-'],
    "mojibake " ++ sq ++ String.mk [aHat, euro, Char.ofNat 0x201D] ++ sq ++ " -> " ++ sq ++ "-" ++ sq⟩,
   ⟨aHat, euro, Char.ofNat 0xA6, ['.', '.', '.'],
    "mojibake " ++ sq ++ String.mk [aHat, euro, Char.ofNat 0xA6] ++ sq ++ " -> " ++ sq ++ "..." ++ sq⟩]

/-- Label of the truncated-quote repair entry: the Python literal
`"mojibake truncated right dbl quote â€ -> \""`. -/
def truncLabel : String :=
  "mojibake truncated right dbl quote " ++ String.mk [aHat, euro] ++ " -> " ++ dqs

/-- Label of the stray-marker entry: `"removed stray Â (U+00C2) before space"`. -/
def strayLabel : String :=
  "removed stray " ++ String.singleton strayMark ++ " (U+00C2) before space"

/-- Python `text.count(bad)` for a three-character pattern: non-overlapping
left-to-right count. -/
def count3 (a b c : Char) : List Char → Nat
  | x :: y :: z :: r =>
    if x = a ∧ y = b ∧ z = c then count3 a b c r + 1
    else count3 a b c (y :: z :: r)
  | _ => 0

/-- Python `text.replace(bad, good)` for a three-character pattern:
non-overlapping left-to-right rewrite. -/
def replace3 (a b c : Char) (rep : List Char) : List Char → List Char
  | x :: y :: z :: r =>
    if x = a ∧ y = b ∧ z = c then rep ++ replace3 a b c rep r
    else x :: replace3 a b c rep (y :: z :: r)
  | t => t

/-- Characters of the regex class `[)\]\}\"'».,!?;:]` in the
truncated-quote pattern. -/
def closeChars : List Char :=
  [')', ']', Char.ofNat 0x7D, dquote, squote, Char.ofNat 0xBB,
   '.', ',', '!', '?', ';', ':']

/-- Lookahead `(?=$|\s|[)\]\}\"'».,!?;:])` of the truncated-quote pattern,
evaluated on the text following the match.  (`$` also matches before a
trailing LF, which the `\s` alternative subsumes.) -/
def trigB : List Char → Bool
  | [] => true
  | h :: _ => pyIsSpace h || closeChars.contains h

/-- The `re.subn` call of the truncated-quote repair: replace each
non-overlapping `U+00E2 U+20AC` whose lookahead holds by a double quote,
returning the new text and the number of replacements. -/
def subnTrunc : List Char → List Char × Nat
  | x :: y :: r =>
    if x = aHat ∧ y = euro ∧ trigB r then
      let p := subnTrunc r
      (dquote :: p.1, p.2 + 1)
    else
      let p := subnTrunc (y :: r)
      (x :: p.1, p.2)
  | t => (t, 0)

/-- Does the list start with a whitespace character? -/
def headIsSpace : List Char → Bool
  | h :: _ => pyIsSpace h
  | [] => false

/-- The `re.sub(r"Â(?=\s)", "", text)` call: drop each U+00C2 directly
followed by whitespace. -/
def strayScan : List Char → List Char
  | x :: r =>
    if x = strayMark ∧ headIsSpace r then strayScan r
    else x :: strayScan r
  | [] => []

/-- Worker of `splitlines`: `acc` holds the current line reversed.  A break
emits the current line; at the end of the text the current line is emitted
only when nonempty (Python emits no final empty line after a trailing
break). -/
def slAux : List Char → List Char → List (List Char)
  | acc, [] => if acc.isEmpty then [] else [acc.reverse]
  | acc, c :: r =>
    if c = Char.ofNat 13 then
      match r with
      | ch :: r2 =>
        if ch = Char.ofNat 10 then acc.reverse :: slAux [] r2
        else acc.reverse :: slAux [] (ch :: r2)
      | [] => [acc.reverse]
    else if isLineBreak c then acc.reverse :: slAux [] r
    else slAux (c :: acc) r

/-- Python `text.splitlines()`. -/
def splitlines (t : List Char) : List (List Char) := slAux [] t

/-- Python `line.rstrip()`. -/
def rstrip (l : List Char) : List Char := (l.reverse.dropWhile pyIsSpace).reverse

/-- Python `"\n".join(lines)`. -/
def joinNL : List (List Char) → List Char
  | [] => []
  | [l] => l
  | l :: l2 :: ls => l ++ Char.ofNat 10 :: joinNL (l2 :: ls)

/-- Python `text.endswith(("\n", "\r"))`. -/
def endsNL (t : List Char) : Bool :=
  match t.getLast? with
  | some c => c == Char.ofNat 10 || c == Char.ofNat 13
  | none => false

/-- The final two lines of `sanitize`: split into lines, strip each line on
the right, rejoin with LF, and append a trailing LF exactly when the text
ended with LF or CR. -/
def lineStage (t : List Char) : List Char :=
  joinNL ((splitlines t).map rstrip) ++ (if endsNL t then [Char.ofNat 10] else [])

/-- The change log: ordered (label, count) pairs. -/
abbrev ChangeLog := List (String × Nat)

/-- The SPACE_SUBS loop of `sanitize`.  A single-character
`text.replace(ch, rep)` is the character map. -/
def spaceGo : List (Char × Char) → List Char → List Char × ChangeLog
  | [], t => (t, [])
  | (ch, rep) :: ps, t =>
    let n := t.count ch
    if n ≠ 0 then
      let r := spaceGo ps (t.map fun c => if c = ch then rep else c)
      (r.1, ("replaced " ++ hexStr ch.toNat, n) :: r.2)
    else spaceGo ps t

/-- Stage 1 of `sanitize`: exotic spaces to ordinary spaces. -/
def stage1 (t : List Char) : List Char × ChangeLog := spaceGo SPACE_SUBS t

/-- The REMOVE_CHARS loop of `sanitize`.  `text.replace(ch, "")` is the
character filter. -/
def removeGo : List Char → List Char → List Char × ChangeLog
  | [], t => (t, [])
  | ch :: ps, t =>
    let n := t.count ch
    if n ≠ 0 then
      let r := removeGo ps (t.filter fun c => c != ch)
      (r.1, ("removed " ++ hexStr ch.toNat, n) :: r.2)
    else removeGo ps t

/-- Stage 2 of `sanitize`: zero-width and BOM characters removed. -/
def stage2 (t : List Char) : List Char × ChangeLog := removeGo REMOVE_CHARS t

/-- The MOJIBAKE_REMAP loop of `sanitize`. -/
def mojGo : List MojRule → List Char → List Char × ChangeLog
  | [], t => (t, [])
  | m :: ms, t =>
    let n := count3 m.k1 m.k2 m.k3 t
    if n ≠ 0 then
      let r := mojGo ms (replace3 m.k1 m.k2 m.k3 m.rep t)
      (r.1, (m.label, n) :: r.2)
    else mojGo ms t

/-- Stage 3 of `sanitize`: fixed mojibake sequences repaired. -/
def stage3 (t : List Char) : List Char × ChangeLog := mojGo MOJIBAKE_REMAP t

/-- Stage 4a of `sanitize`: the truncated-quote `re.subn`, logged only when
it replaced something. -/
def stage4a (t : List Char) : List Char × ChangeLog :=
  let p := subnTrunc t
  if p.2 ≠ 0 then (p.1, [(truncLabel, p.2)]) else (t, [])

/-- Stage 4b of `sanitize`: the stray-marker `re.sub`, counted by the length
difference and logged only when nonzero. -/
def stage4b (t : List Char) : List Char × ChangeLog :=
  let nt := strayScan t
  let n := t.length - nt.length
  (nt, if n ≠ 0 then [(strayLabel, n)] else [])

/-- The `sanitize` function of src/subscrub.py: the five stages in source
order; the final line normalization contributes no change-log entry. -/
def sanitize (t : List Char) : List Char × ChangeLog :=
  let s1 := stage1 t
  let s2 := stage2 s1.1
  let s3 := stage3 s2.1
  let s4 := stage4a s3.1
  let s5 := stage4b s4.1
  (lineStage s5.1, s1.2 ++ s2.2 ++ s3.2 ++ s4.2 ++ s5.2)

/-- Bytes of the input file. -/
abbrev Byte := Fin 256

/-- UTF-8 continuation byte. -/
def contB (b : Byte) : Bool := 0x80 ≤ b.val && b.val ≤ 0xBF

/-- Range check for the second byte of a three-byte UTF-8 sequence
(excludes overlong encodings and surrogates, as Python strict utf-8 does). -/
def cont2ok (b b2 : Byte) : Bool :=
  if b.val = 0xE0 then 0xA0 ≤ b2.val && b2.val ≤ 0xBF
  else if b.val = 0xED then 0x80 ≤ b2.val && b2.val ≤ 0x9F
  else contB b2

/-- Range check for the second byte of a four-byte UTF-8 sequence. -/
def cont4ok (b b2 : Byte) : Bool :=
  if b.val = 0xF0 then 0x90 ≤ b2.val && b2.val ≤ 0xBF
  else if b.val = 0xF4 then 0x80 ≤ b2.val && b2.val ≤ 0x8F
  else contB b2

/-- Strict UTF-8 decoding as Python `bytes.decode("utf-8")`: rejects
invalid leads, overlong forms, surrogates and truncated sequences. -/
def utf8Decode : List Byte → Option (List Char)
  | [] => some []
  | b :: r =>
    if b.val ≤ 0x7F then (utf8Decode r).map (fun t => Char.ofNat b.val :: t)
    else if b.val < 0xC2 then none
    else if b.val ≤ 0xDF then
      match r with
      | b2 :: r2 =>
        if contB b2 then
          (utf8Decode r2).map (fun t => Char.ofNat ((b.val - 0xC0) * 0x40 + (b2.val - 0x80)) :: t)
        else none
      | [] => none
    else if b.val ≤ 0xEF then
      match r with
      | b2 :: b3 :: r2 =>
        if cont2ok b b2 && contB b3 then
          (utf8Decode r2).map (fun t =>
            Char.ofNat (((b.val - 0xE0) * 0x40 + (b2.val - 0x80)) * 0x40 + (b3.val - 0x80)) :: t)
        else none
      | _ => none
    else if b.val ≤ 0xF4 then
      match r with
      | b2 :: b3 :: b4 :: r2 =>
        if cont4ok b b2 && contB b3 && contB b4 then
          (utf8Decode r2).map (fun t =>
            Char.ofNat ((((b.val - 0xF0) * 0x40 + (b2.val - 0x80)) * 0x40 + (b3.val - 0x80)) * 0x40 + (b4.val - 0x80)) :: t)
        else none
      | _ => none
    else none

/-- Python `bytes.decode("utf-8-sig")`: strip one leading BOM if present,
then strict UTF-8. -/
def utf8SigDecode : List Byte → Option (List Char)
  | b1 :: b2 :: b3 :: r =>
    if b1.val = 0xEF ∧ b2.val = 0xBB ∧ b3.val = 0xBF then utf8Decode r
    else utf8Decode (b1 :: b2 :: b3 :: r)
  | t => utf8Decode t

/-- One byte of cp1252: bytes 81, 8D, 8F, 90, 9D are undefined, the other
bytes of 80-9F map to the Windows punctuation block, the rest are
identity. -/
def cp1252Byte (b : Byte) : Option Char :=
  if b.val < 0x80 || 0xA0 ≤ b.val then some (Char.ofNat b.val)
  else match b.val with
  | 0x80 => some (Char.ofNat 0x20AC)
  | 0x82 => some (Char.ofNat 0x201A)
  | 0x83 => some (Char.ofNat 0x0192)
  | 0x84 => some (Char.ofNat 0x201E)
  | 0x85 => some (Char.ofNat 0x2026)
  | 0x86 => some (Char.ofNat 0x2020)
  | 0x87 => some (Char.ofNat 0x2021)
  | 0x88 => some (Char.ofNat 0x02C6)
  | 0x89 => some (Char.ofNat 0x2030)
  | 0x8A => some (Char.ofNat 0x0160)
  | 0x8B => some (Char.ofNat 0x2039)
  | 0x8C => some (Char.ofNat 0x0152)
  | 0x8E => some (Char.ofNat 0x017D)
  | 0x91 => some (Char.ofNat 0x2018)
  | 0x92 => some (Char.ofNat 0x2019)
  | 0x93 => some (Char.ofNat 0x201C)
  | 0x94 => some (Char.ofNat 0x201D)
  | 0x95 => some (Char.ofNat 0x2022)
  | 0x96 => some (Char.ofNat 0x2013)
  | 0x97 => some (Char.ofNat 0x2014)
  | 0x98 => some (Char.ofNat 0x02DC)
  | 0x99 => some (Char.ofNat 0x2122)
  | 0x9A => some (Char.ofNat 0x0161)
  | 0x9B => some (Char.ofNat 0x203A)
  | 0x9C => some (Char.ofNat 0x0153)
  | 0x9E => some (Char.ofNat 0x017E)
  | 0x9F => some (Char.ofNat 0x0178)
  | _ => none

/-- Python `bytes.decode("cp1252")`. -/
def cp1252Decode : List Byte → Option (List Char)
  | [] => some []
  | b :: r =>
    match cp1252Byte b with
    | some c => (cp1252Decode r).map (fun t => c :: t)
    | none => none

/-- Python `bytes.decode("latin-1")`: total, each byte is its code point. -/
def latin1Decode (data : List Byte) : List Char := data.map (fun b => Char.ofNat b.val)

/-- latin-1 decoding as one more candidate of the loop: it never fails. -/
def latin1DecodeOpt (data : List Byte) : Option (List Char) := some (latin1Decode data)

/-- The replacement character U+FFFD. -/
def replChar : Char := Char.ofNat 0xFFFD

/-- Python `bytes.decode("utf-8", errors="replace")`: each maximal invalid
subpart becomes one U+FFFD.  Only the fallback branch of `try_decode` uses
this, and that branch is proven unreachable. -/
def utf8Replace : List Byte → List Char
  | [] => []
  | b :: r =>
    if b.val ≤ 0x7F then Char.ofNat b.val :: utf8Replace r
    else if b.val < 0xC2 then replChar :: utf8Replace r
    else if b.val ≤ 0xDF then
      match r with
      | b2 :: r2 =>
        if contB b2 then Char.ofNat ((b.val - 0xC0) * 0x40 + (b2.val - 0x80)) :: utf8Replace r2
        else replChar :: utf8Replace (b2 :: r2)
      | [] => [replChar]
    else if b.val ≤ 0xEF then
      match r with
      | b2 :: r2 =>
        if cont2ok b b2 then
          match r2 with
          | b3 :: r3 =>
            if contB b3 then
              Char.ofNat (((b.val - 0xE0) * 0x40 + (b2.val - 0x80)) * 0x40 + (b3.val - 0x80)) :: utf8Replace r3
            else replChar :: utf8Replace (b3 :: r3)
          | [] => [replChar]
        else replChar :: utf8Replace (b2 :: r2)
      | [] => [replChar]
    else if b.val ≤ 0xF4 then
      match r with
      | b2 :: r2 =>
        if cont4ok b b2 then
          match r2 with
          | b3 :: r3 =>
            if contB b3 then
              match r3 with
              | b4 :: r4 =>
                if contB b4 then
                  Char.ofNat ((((b.val - 0xF0) * 0x40 + (b2.val - 0x80)) * 0x40 + (b3.val - 0x80)) * 0x40 + (b4.val - 0x80)) :: utf8Replace r4
                else replChar :: utf8Replace (b4 :: r4)
              | [] => [replChar]
            else replChar :: utf8Replace (b3 :: r3)
          | [] => [replChar]
        else replChar :: utf8Replace (b2 :: r2)
      | [] => [replChar]
    else replChar :: utf8Replace r

/-- The `try_decode` function of src/subscrub.py: try utf-8-sig, utf-8,
cp1252, latin-1 in order, catching the decode failure of each; if all fail,
fall back to the lossy decode. -/
def try_decode (data : List Byte) : List Char × String :=
  match utf8SigDecode data with
  | some t => (t, "utf-8-sig")
  | none =>
    match utf8Decode data with
    | some t => (t, "utf-8")
    | none =>
      match cp1252Decode data with
      | some t => (t, "cp1252")
      | none =>
        match latin1DecodeOpt data with
        | some t => (t, "latin-1")
        | none => (utf8Replace data, "utf-8(replace)")

/-- Modelled from the spec (for claim C3): the first successful strict
decode in the fixed candidate order, with no lossy branch at all -- the
spec asserts the permissive last candidate makes the fallback
unreachable. -/
def firstSuccessDecode (data : List Byte) : List Char × String :=
  match utf8SigDecode data with
  | some t => (t, "utf-8-sig")
  | none =>
    match utf8Decode data with
    | some t => (t, "utf-8")
    | none =>
      match cp1252Decode data with
      | some t => (t, "cp1252")
      | none => (latin1Decode data, "latin-1")

/-- Does the text contain the given three-character sequence (at any
position)? -/
def containsSub3 (a b c : Char) : List Char → Bool
  | x :: y :: z :: r => (x == a && y == b && z == c) || containsSub3 a b c (y :: z :: r)
  | _ => false

/-- Does the text contain U+00E2 U+20AC followed by the truncated-quote
trigger (end of text, whitespace, or a closing character)? -/
def containsTruncPat : List Char → Bool
  | x :: y :: r => (x == aHat && y == euro && trigB r) || containsTruncPat (y :: r)
  | _ => false

/-- Does the text contain U+00C2 directly followed by whitespace? -/
def containsStrayPat : List Char → Bool
  | x :: r => (x == strayMark && headIsSpace r) || containsStrayPat r
  | [] => false

/-- ASCII letter, used to state "between two words" in claim C7. -/
def isAsciiLetter (c : Char) : Bool :=
  (65 ≤ c.toNat && c.toNat ≤ 90) || (97 ≤ c.toNat && c.toNat ≤ 122)

/-- Modelled from the spec (for claim C6): keep position `i` unless it holds
the stray marker and the next position holds whitespace. -/
def strayKeep (t : List Char) (i : Nat) : Bool :=
  !(t.get? i == some strayMark && (t.get? (i + 1)).any pyIsSpace)

/-- Modelled from the spec (for claim C6): the text with exactly the marked
positions deleted, every other character kept in order. -/
def straySpec (t : List Char) : List Char :=
  (List.range t.length).filterMap (fun i => if strayKeep t i then t.get? i else none)

end SubScrub

namespace SubScrub

/-- C2: for every byte sequence (empty, invalid UTF-8, arbitrary binary),
`try_decode` returns a (text, encodingName) pair, always one of the five
declared outcomes; no decoding failure escapes to the caller. -/
theorem try_decode_total (data : List Byte) :
    ∃ t e, try_decode data = (t, e) ∧
      (e = "utf-8-sig" ∨ e = "utf-8" ∨ e = "cp1252" ∨ e = "latin-1" ∨ e = "utf-8(replace)") := by
  unfold try_decode
  split
  · exact ⟨_, _, rfl, Or.inl rfl⟩
  · split
    · exact ⟨_, _, rfl, Or.inr (Or.inl rfl)⟩
    · split
      · exact ⟨_, _, rfl, Or.inr (Or.inr (Or.inl rfl))⟩
      · split
        · exact ⟨_, _, rfl, Or.inr (Or.inr (Or.inr (Or.inl rfl)))⟩
        · exact ⟨_, _, rfl, Or.inr (Or.inr (Or.inr (Or.inr rfl)))⟩

/-- C3: `try_decode` tries utf-8-sig, utf-8, cp1252, latin-1 in that fixed
order and returns the first success with that candidate name; latin-1
accepts every byte sequence, so the lossy fallback branch is unreachable. -/
theorem try_decode_first_success (data : List Byte) :
    try_decode data = firstSuccessDecode data ∧
      latin1DecodeOpt data ≠ none ∧
      (try_decode data).2 ≠ "utf-8(replace)" := by
  have hlat : latin1DecodeOpt data = some (latin1Decode data) := rfl
  have he : try_decode data = firstSuccessDecode data := by
    unfold try_decode firstSuccessDecode
    split
    · rfl
    · split
      · rfl
      · split
        · rfl
        · rw [hlat]
  have hl : (firstSuccessDecode data).2 ≠ "utf-8(replace)" := by
    unfold firstSuccessDecode
    split
    · intro h; simp at h
    · split
      · intro h; simp at h
      · split
        · intro h; simp at h
        · intro h; simp at h
  exact ⟨he, by simp [latin1DecodeOpt], he ▸ hl⟩

end SubScrub

namespace SubScrub

/-- C8: sanitizing the corrupted "don'..'t" yields the repaired text with an
apostrophe and a single change-log entry for that mojibake mapping, count 1. -/
theorem sanitize_don_mojibake :
    sanitize ['d', 'o', 'n', aHat, euro, Char.ofNat 0x2122, 't'] =
      (['d', 'o', 'n', squote, 't'],
       [("mojibake " ++ sq ++ String.mk [aHat, euro, Char.ofNat 0x2122] ++ sq ++ " -> " ++ dqs ++ sq ++ dqs, 1)]) := by
  decide

/-- C1 counterexample: `sanitize` is not idempotent.  On "ÂÂ x" the stray
scan deletes only the second marker, leaving "Â x", and the second call
deletes the first marker and logs an entry; on the doubled truncated pair
the inserted double quote becomes a fresh trigger for the second call. -/
theorem sanitize_not_idempotent :
    (sanitize [strayMark, strayMark, ' ', 'x']).1 = [strayMark, ' ', 'x'] ∧
      sanitize [strayMark, ' ', 'x'] = ([' ', 'x'], [(strayLabel, 1)]) ∧
      (sanitize [aHat, euro, aHat, euro]).1 = [aHat, euro, dquote] ∧
      sanitize [aHat, euro, dquote] = ([dquote, dquote], [(truncLabel, 1)]) := by
  decide

/-- C4 counterexample: the vertical tab is a recognized line-ending
(splitlines splits on it), yet `sanitize` appends no trailing newline for
input ending in it, because the code tests endswith(("\n", "\r")) only. -/
theorem lineStage_vt_no_trailing_newline :
    sanitize ['a', Char.ofNat 0x0B] = (['a'], []) ∧
      isLineBreak (Char.ofNat 0x0B) = true ∧
      splitlines ['a', Char.ofNat 0x0B] = [['a']] ∧
      endsNL ['a', Char.ofNat 0x0B] = false := by
  decide

/-- C6 counterexample: in the original input the marker is followed by the
zero-width space, which is not whitespace, yet `sanitize` still deletes the
marker (stage 2 removed the zero-width character first) and logs an entry. -/
theorem stray_deleted_without_ws_successor :
    sanitize [strayMark, Char.ofNat 0x200B, ' ', 'x'] =
      ([' ', 'x'], [("removed " ++ hexStr 0x200B, 1), (strayLabel, 1)]) ∧
      pyIsSpace (Char.ofNat 0x200B) = false := by
  decide

/-- C9 counterexample: a single space contains none of the target
characters or sequences, yet the output differs from the input (the final
line-normalization strips it), so "text identical to the input" fails. -/
theorem sanitize_clean_input_changed :
    (SPACE_SUBS.all fun p => !([' '].contains p.1)) = true ∧
      (REMOVE_CHARS.all fun ch => !([' '].contains ch)) = true ∧
      (MOJIBAKE_REMAP.all fun m => !containsSub3 m.k1 m.k2 m.k3 [' ']) = true ∧
      containsTruncPat [' '] = false ∧
      containsStrayPat [' '] = false ∧
      sanitize [' '] = ([], []) ∧
      ([] : List Char) ≠ [' '] := by
  decide

end SubScrub

namespace SubScrub

theorem count3_eq_zero (a b c : Char) (t : List Char) (h : a ∉ t) : count3 a b c t = 0 := by
  induction t using count3.induct a b c with
  | case1 x y z r hm ih =>
    simp only [List.mem_cons, not_or] at h
    exact absurd hm.1.symm h.1
  | case2 x y z r hm ih =>
    simp only [List.mem_cons, not_or] at h
    rw [count3, if_neg hm]
    exact ih (by simp only [List.mem_cons, not_or]; exact ⟨h.2.1, h.2.2.1, h.2.2.2⟩)
  | case3 t h2 =>
    rcases t with _ | ⟨x, _ | ⟨y, _ | ⟨z, r⟩⟩⟩
    · rfl
    · rfl
    · rfl
    · exact absurd rfl (h2 x y z r)

theorem replace3_noop (a b c : Char) (rep : List Char) (t : List Char) (h : a ∉ t) :
    replace3 a b c rep t = t := by
  induction t using replace3.induct a b c rep with
  | case1 x y z r hm ih =>
    simp only [List.mem_cons, not_or] at h
    exact absurd hm.1.symm h.1
  | case2 x y z r hm ih =>
    simp only [List.mem_cons, not_or] at h
    rw [replace3, if_neg hm]
    rw [ih (by simp only [List.mem_cons, not_or]; exact ⟨h.2.1, h.2.2.1, h.2.2.2⟩)]
  | case3 t h2 =>
    rcases t with _ | ⟨x, _ | ⟨y, _ | ⟨z, r⟩⟩⟩
    · rfl
    · rfl
    · rfl
    · exact absurd rfl (h2 x y z r)

theorem containsSub3_false (a b c : Char) (t : List Char) (h : a ∉ t) :
    containsSub3 a b c t = false := by
  induction t using containsSub3.induct a b c with
  | case1 x y z r ih =>
    simp only [List.mem_cons, not_or] at h
    rw [containsSub3]
    have hx : (x == a) = false := beq_eq_false_iff_ne.mpr (fun e => h.1 e.symm)
    simp only [hx, Bool.false_and, Bool.false_or]
    exact ih (by simp only [List.mem_cons, not_or]; exact ⟨h.2.1, h.2.2.1, h.2.2.2⟩)
  | case2 t h2 =>
    rcases t with _ | ⟨x, _ | ⟨y, _ | ⟨z, r⟩⟩⟩
    · rfl
    · rfl
    · rfl
    · exact absurd rfl (h2 x y z r)

theorem count3_eq_zero_of_no_sub (a b c : Char) (t : List Char)
    (h : containsSub3 a b c t = false) : count3 a b c t = 0 := by
  induction t using count3.induct a b c with
  | case1 x y z r hm ih =>
    rw [containsSub3] at h
    simp only [Bool.or_eq_false_iff, Bool.and_eq_false_iff, beq_eq_false_iff_ne] at h
    rcases h.1 with h1 | h1
    · rcases h1 with h1 | h1 <;> simp [hm.1, hm.2.1] at h1
    · exact absurd hm.2.2 (by simp [h1])
  | case2 x y z r hm ih =>
    rw [count3, if_neg hm]
    rw [containsSub3] at h
    simp only [Bool.or_eq_false_iff] at h
    exact ih h.2
  | case3 t h2 =>
    rcases t with _ | ⟨x, _ | ⟨y, _ | ⟨z, r⟩⟩⟩
    · rfl
    · rfl
    · rfl
    · exact absurd rfl (h2 x y z r)

theorem replace3_noop_of_no_sub (a b c : Char) (rep : List Char) (t : List Char)
    (h : containsSub3 a b c t = false) : replace3 a b c rep t = t := by
  induction t using replace3.induct a b c rep with
  | case1 x y z r hm ih =>
    rw [containsSub3] at h
    simp only [Bool.or_eq_false_iff, Bool.and_eq_false_iff, beq_eq_false_iff_ne] at h
    rcases h.1 with h1 | h1
    · rcases h1 with h1 | h1 <;> simp [hm.1, hm.2.1] at h1
    · exact absurd hm.2.2 (by simp [h1])
  | case2 x y z r hm ih =>
    rw [replace3, if_neg hm]
    rw [containsSub3] at h
    simp only [Bool.or_eq_false_iff] at h
    rw [ih h.2]
  | case3 t h2 =>
    rcases t with _ | ⟨x, _ | ⟨y, _ | ⟨z, r⟩⟩⟩
    · rfl
    · rfl
    · rfl
    · exact absurd rfl (h2 x y z r)

theorem containsTruncPat_false (t : List Char) (h : aHat ∉ t) :
    containsTruncPat t = false := by
  induction t using containsTruncPat.induct with
  | case1 x y r ih =>
    simp only [List.mem_cons, not_or] at h
    rw [containsTruncPat]
    have hx : (x == aHat) = false := beq_eq_false_iff_ne.mpr (fun e => h.1 e.symm)
    simp only [hx, Bool.false_and, Bool.false_or]
    exact ih (by simp only [List.mem_cons, not_or]; exact ⟨h.2.1, h.2.2⟩)
  | case2 t h2 =>
    rcases t with _ | ⟨x, _ | ⟨y, r⟩⟩
    · rfl
    · rfl
    · exact absurd rfl (h2 x y r)

theorem subnTrunc_noop (t : List Char) (h : containsTruncPat t = false) :
    subnTrunc t = (t, 0) := by
  induction t using subnTrunc.induct with
  | case1 x y r hm ih =>
    rw [containsTruncPat] at h
    simp only [Bool.or_eq_false_iff, Bool.and_eq_false_iff, beq_eq_false_iff_ne] at h
    rcases h.1 with h1 | h1
    · rcases h1 with h1 | h1 <;> simp [hm.1, hm.2.1] at h1
    · exact absurd hm.2.2 (by simp [h1])
  | case2 x y r hm ih =>
    rw [subnTrunc, if_neg hm]
    rw [containsTruncPat] at h
    simp only [Bool.or_eq_false_iff] at h
    rw [ih h.2]
  | case3 t h2 =>
    rcases t with _ | ⟨x, _ | ⟨y, r⟩⟩
    · rfl
    · rfl
    · exact absurd rfl (h2 x y r)

theorem containsStrayPat_false (t : List Char) (h : strayMark ∉ t) :
    containsStrayPat t = false := by
  induction t using containsStrayPat.induct with
  | case1 x r ih =>
    simp only [List.mem_cons, not_or] at h
    rw [containsStrayPat]
    have hx : (x == strayMark) = false := beq_eq_false_iff_ne.mpr (fun e => h.1 e.symm)
    simp only [hx, Bool.false_and, Bool.false_or]
    exact ih h.2
  | case2 => rfl

theorem strayScan_noop (t : List Char) (h : containsStrayPat t = false) :
    strayScan t = t := by
  induction t using strayScan.induct with
  | case1 x r hm ih =>
    rw [containsStrayPat] at h
    simp only [Bool.or_eq_false_iff, Bool.and_eq_false_iff, beq_eq_false_iff_ne] at h
    rcases h.1 with h1 | h1
    · exact absurd hm.1 h1
    · exact absurd hm.2 (by simp [h1])
  | case2 x r hm ih =>
    rw [strayScan, if_neg hm]
    rw [containsStrayPat] at h
    simp only [Bool.or_eq_false_iff] at h
    rw [ih h.2]
  | case3 => rfl

theorem spaceGo_noop (ps : List (Char × Char)) (t : List Char)
    (h : ∀ p ∈ ps, p.1 ∉ t) : spaceGo ps t = (t, []) := by
  induction ps with
  | nil => rfl
  | cons p ps ih =>
    obtain ⟨ch, rep⟩ := p
    have h0 : t.count ch = 0 := List.count_eq_zero.mpr (h (ch, rep) (List.mem_cons_self _ _))
    rw [spaceGo]
    simp only [h0, ne_eq, not_true_eq_false, reduceIte]
    exact ih (fun q hq => h q (List.mem_cons_of_mem _ hq))

theorem removeGo_noop (ps : List Char) (t : List Char)
    (h : ∀ ch ∈ ps, ch ∉ t) : removeGo ps t = (t, []) := by
  induction ps with
  | nil => rfl
  | cons ch ps ih =>
    have h0 : t.count ch = 0 := List.count_eq_zero.mpr (h ch (List.mem_cons_self _ _))
    rw [removeGo]
    simp only [h0, ne_eq, not_true_eq_false, reduceIte]
    exact ih (fun q hq => h q (List.mem_cons_of_mem _ hq))

theorem mojGo_noop (ms : List MojRule) (t : List Char)
    (h : ∀ m ∈ ms, containsSub3 m.k1 m.k2 m.k3 t = false) : mojGo ms t = (t, []) := by
  induction ms with
  | nil => rfl
  | cons m ms ih =>
    have h0 : count3 m.k1 m.k2 m.k3 t = 0 :=
      count3_eq_zero_of_no_sub _ _ _ _ (h m (List.mem_cons_self _ _))
    rw [mojGo]
    simp only [h0, ne_eq, not_true_eq_false, reduceIte]
    exact ih (fun q hq => h q (List.mem_cons_of_mem _ hq))

end SubScrub

namespace SubScrub

theorem mem_spaceGo (ps : List (Char × Char)) (t : List Char) (c : Char)
    (hc : c ∈ (spaceGo ps t).1) : c ∈ t ∨ ∃ p ∈ ps, c = p.2 := by
  induction ps generalizing t with
  | nil => exact Or.inl hc
  | cons p ps ih =>
    obtain ⟨ch, rep⟩ := p
    rw [spaceGo] at hc
    by_cases h0 : t.count ch ≠ 0
    · rw [if_pos h0] at hc
      rcases ih _ hc with hmem | ⟨q, hq, hcq⟩
      · rcases List.mem_map.mp hmem with ⟨x, hx, hfx⟩
        by_cases hxc : x = ch
        · subst hxc
          simp only [reduceIte] at hfx
          exact Or.inr ⟨(x, rep), List.mem_cons_self _ _, hfx.symm⟩
        · simp only [hxc, reduceIte] at hfx
          exact Or.inl (hfx ▸ hx)
      · exact Or.inr ⟨q, List.mem_cons_of_mem _ hq, hcq⟩
    · rw [if_neg h0] at hc
      rcases ih _ hc with hmem | ⟨q, hq, hcq⟩
      · exact Or.inl hmem
      · exact Or.inr ⟨q, List.mem_cons_of_mem _ hq, hcq⟩

theorem mem_removeGo (ps : List Char) (t : List Char) (c : Char)
    (hc : c ∈ (removeGo ps t).1) : c ∈ t := by
  induction ps generalizing t with
  | nil => exact hc
  | cons ch ps ih =>
    rw [removeGo] at hc
    by_cases h0 : t.count ch ≠ 0
    · rw [if_pos h0] at hc
      exact List.mem_of_mem_filter (ih _ hc)
    · simp only [h0, reduceIte] at hc
      exact ih _ hc

theorem mem_replace3 (a b c : Char) (rep t : List Char) (x : Char)
    (hx : x ∈ replace3 a b c rep t) : x ∈ t ∨ x ∈ rep := by
  induction t using replace3.induct a b c rep with
  | case1 u y z r hm ih =>
    rw [replace3, if_pos hm] at hx
    rcases List.mem_append.mp hx with h1 | h1
    · exact Or.inr h1
    · rcases ih h1 with h2 | h2
      · exact Or.inl (by simp [h2])
      · exact Or.inr h2
  | case2 u y z r hm ih =>
    rw [replace3, if_neg hm] at hx
    rcases List.mem_cons.mp hx with h1 | h1
    · exact Or.inl (by simp [h1])
    · rcases ih h1 with h2 | h2
      · exact Or.inl (by simpa using Or.inr h2)
      · exact Or.inr h2
  | case3 t h2 =>
    rcases t with _ | ⟨u, _ | ⟨v, _ | ⟨w, r⟩⟩⟩
    · exact Or.inl hx
    · exact Or.inl hx
    · exact Or.inl hx
    · exact absurd rfl (h2 u v w r)

theorem mem_mojGo (ms : List MojRule) (t : List Char) (c : Char)
    (hc : c ∈ (mojGo ms t).1) : c ∈ t ∨ ∃ m ∈ ms, c ∈ m.rep := by
  induction ms generalizing t with
  | nil => exact Or.inl hc
  | cons m ms ih =>
    rw [mojGo] at hc
    by_cases h0 : count3 m.k1 m.k2 m.k3 t ≠ 0
    · rw [if_pos h0] at hc
      rcases ih _ hc with hmem | ⟨q, hq, hcq⟩
      · rcases mem_replace3 _ _ _ _ _ _ hmem with h1 | h1
        · exact Or.inl h1
        · exact Or.inr ⟨m, List.mem_cons_self _ _, h1⟩
      · exact Or.inr ⟨q, List.mem_cons_of_mem _ hq, hcq⟩
    · rw [if_neg h0] at hc
      rcases ih _ hc with hmem | ⟨q, hq, hcq⟩
      · exact Or.inl hmem
      · exact Or.inr ⟨q, List.mem_cons_of_mem _ hq, hcq⟩

theorem mem_subnTrunc (t : List Char) (c : Char) (hc : c ∈ (subnTrunc t).1) :
    c ∈ t ∨ c = dquote := by
  induction t using subnTrunc.induct with
  | case1 x y r hm ih =>
    rw [subnTrunc, if_pos hm] at hc
    rcases List.mem_cons.mp hc with h1 | h1
    · exact Or.inr h1
    · rcases ih h1 with h2 | h2
      · exact Or.inl (by simp [h2])
      · exact Or.inr h2
  | case2 x y r hm ih =>
    rw [subnTrunc, if_neg hm] at hc
    rcases List.mem_cons.mp hc with h1 | h1
    · exact Or.inl (by simp [h1])
    · rcases ih h1 with h2 | h2
      · exact Or.inl (by simpa using Or.inr h2)
      · exact Or.inr h2
  | case3 t h2 =>
    rcases t with _ | ⟨u, _ | ⟨v, r⟩⟩
    · exact Or.inl hc
    · exact Or.inl hc
    · exact absurd rfl (h2 u v r)

theorem mem_strayScan (t : List Char) (c : Char) (hc : c ∈ strayScan t) : c ∈ t := by
  induction t using strayScan.induct with
  | case1 x r hm ih =>
    rw [strayScan, if_pos hm] at hc
    exact List.mem_cons_of_mem _ (ih hc)
  | case2 x r hm ih =>
    rw [strayScan, if_neg hm] at hc
    rcases List.mem_cons.mp hc with h1 | h1
    · exact List.mem_cons.mpr (Or.inl h1)
    · exact List.mem_cons_of_mem _ (ih h1)
  | case3 => exact absurd hc (List.not_mem_nil c)

theorem slAux_nil_emp (acc : List Char) (h : acc.isEmpty = true) : slAux acc [] = [] := by
  simp [slAux, h]

theorem slAux_nil_ne (acc : List Char) (h : ¬acc.isEmpty = true) : slAux acc [] = [acc.reverse] := by
  simp [slAux, h]

theorem slAux_crlf (acc tail : List Char) :
    slAux acc (Char.ofNat 13 :: Char.ofNat 10 :: tail) = acc.reverse :: slAux [] tail := by
  simp [slAux]

theorem slAux_cr_other (acc tail : List Char) (ch : Char) (h : ¬ch = Char.ofNat 10) :
    slAux acc (Char.ofNat 13 :: ch :: tail) = acc.reverse :: slAux [] (ch :: tail) := by
  simp [slAux, h]

theorem slAux_cr_last (acc : List Char) : slAux acc [Char.ofNat 13] = [acc.reverse] := by
  simp [slAux]

theorem slAux_brk (acc : List Char) (c : Char) (r : List Char) (h1 : ¬c = Char.ofNat 13)
    (h2 : isLineBreak c = true) : slAux acc (c :: r) = acc.reverse :: slAux [] r := by
  rw [slAux.eq_def]
  simp [h1, h2]

theorem slAux_plain (acc : List Char) (c : Char) (r : List Char) (h1 : ¬c = Char.ofNat 13)
    (h2 : ¬isLineBreak c = true) : slAux acc (c :: r) = slAux (c :: acc) r := by
  rw [slAux.eq_def]
  simp [h1, h2]

theorem mem_slAux : ∀ acc r l, l ∈ slAux acc r → ∀ c, c ∈ l → c ∈ acc ∨ c ∈ r := by
  intro acc r
  induction acc, r using slAux.induct with
  | case1 acc h =>
    intro l hl
    rw [slAux_nil_emp acc h] at hl
    exact absurd hl (List.not_mem_nil l)
  | case2 acc h =>
    intro l hl c hc
    rw [slAux_nil_ne acc h, List.mem_singleton] at hl
    subst hl
    exact Or.inl (List.mem_reverse.mp hc)
  | case3 acc tail ih =>
    intro l hl c hc
    rw [slAux_crlf] at hl
    rcases List.mem_cons.mp hl with h1 | h1
    · subst h1
      exact Or.inl (List.mem_reverse.mp hc)
    · rcases ih l h1 c hc with h2 | h2
      · simp at h2
      · exact Or.inr (List.mem_cons_of_mem _ (List.mem_cons_of_mem _ h2))
  | case4 acc ch tail h ih =>
    intro l hl c hc
    rw [slAux_cr_other acc tail ch h] at hl
    rcases List.mem_cons.mp hl with h1 | h1
    · subst h1
      exact Or.inl (List.mem_reverse.mp hc)
    · rcases ih l h1 c hc with h2 | h2
      · simp at h2
      · exact Or.inr (List.mem_cons_of_mem _ h2)
  | case5 acc =>
    intro l hl c hc
    rw [slAux_cr_last, List.mem_singleton] at hl
    subst hl
    exact Or.inl (List.mem_reverse.mp hc)
  | case6 acc d r h1 h2 ih =>
    intro l hl c hc
    rw [slAux_brk acc d r h1 h2] at hl
    rcases List.mem_cons.mp hl with h3 | h3
    · subst h3
      exact Or.inl (List.mem_reverse.mp hc)
    · rcases ih l h3 c hc with h4 | h4
      · simp at h4
      · exact Or.inr (List.mem_cons_of_mem _ h4)
  | case7 acc d r h1 h2 ih =>
    intro l hl c hc
    rw [slAux_plain acc d r h1 h2] at hl
    rcases ih l hl c hc with h3 | h3
    · rcases List.mem_cons.mp h3 with h4 | h4
      · exact Or.inr (h4 ▸ List.mem_cons_self _ _)
      · exact Or.inl h4
    · exact Or.inr (List.mem_cons_of_mem _ h3)

theorem mem_of_mem_splitlines (t l : List Char) (c : Char)
    (hl : l ∈ splitlines t) (hc : c ∈ l) : c ∈ t := by
  rcases mem_slAux [] t l hl c hc with h | h
  · simp at h
  · exact h

theorem mem_rstrip (l : List Char) (c : Char) (hc : c ∈ rstrip l) : c ∈ l := by
  unfold rstrip at hc
  have := (List.dropWhile_sublist pyIsSpace (l := l.reverse)).mem (List.mem_reverse.mp hc)
  exact List.mem_reverse.mp this

theorem mem_joinNL (L : List (List Char)) (c : Char) (hc : c ∈ joinNL L) :
    (∃ l ∈ L, c ∈ l) ∨ c = Char.ofNat 10 := by
  induction L using joinNL.induct with
  | case1 => simp [joinNL] at hc
  | case2 l => exact Or.inl ⟨l, List.mem_singleton_self l, hc⟩
  | case3 l l2 ls ih =>
    rw [joinNL] at hc
    rcases List.mem_append.mp hc with h1 | h1
    · exact Or.inl ⟨l, List.mem_cons_self _ _, h1⟩
    · rcases List.mem_cons.mp h1 with h2 | h2
      · exact Or.inr h2
      · rcases ih h2 with ⟨l3, hl3, hc3⟩ | h3
        · exact Or.inl ⟨l3, List.mem_cons_of_mem _ hl3, hc3⟩
        · exact Or.inr h3

theorem mem_lineStage (t : List Char) (c : Char) (hc : c ∈ lineStage t) :
    c ∈ t ∨ c = Char.ofNat 10 := by
  unfold lineStage at hc
  rcases List.mem_append.mp hc with h1 | h1
  · rcases mem_joinNL _ _ h1 with ⟨l, hl, hcl⟩ | h2
    · rcases List.mem_map.mp hl with ⟨l0, hl0, hrl⟩
      exact Or.inl (mem_of_mem_splitlines t l0 c hl0 (mem_rstrip _ _ (hrl ▸ hcl)))
    · exact Or.inr h2
  · by_cases he : endsNL t = true
    · rw [if_pos he, List.mem_singleton] at h1
      exact Or.inr h1
    · rw [if_neg he] at h1
      exact absurd h1 (List.not_mem_nil c)

end SubScrub

namespace SubScrub

theorem slAux_no_break (l : List Char) (hl : ∀ c ∈ l, isLineBreak c = false) :
    ∀ acc, slAux acc l = if (acc.reverse ++ l).isEmpty then [] else [acc.reverse ++ l] := by
  induction l with
  | nil =>
    intro acc
    by_cases he : acc.isEmpty = true
    · rw [slAux_nil_emp acc he]
      simp_all [List.isEmpty_iff]
    · rw [slAux_nil_ne acc he]
      simp_all [List.isEmpty_iff]
  | cons c l ih =>
    intro acc
    have hc : isLineBreak c = false := hl c (List.mem_cons_self _ _)
    have hcr : ¬c = Char.ofNat 13 := by
      intro h
      subst h
      simp [isLineBreak] at hc
    rw [slAux_plain acc c l hcr (by simp [hc])]
    rw [ih (fun d hd => hl d (List.mem_cons_of_mem _ hd)) (c :: acc)]
    simp

theorem slAux_append_lf (l : List Char) (hl : ∀ c ∈ l, isLineBreak c = false) :
    ∀ acc s, slAux acc (l ++ Char.ofNat 10 :: s) = (acc.reverse ++ l) :: slAux [] s := by
  induction l with
  | nil =>
    intro acc s
    have h1 : ¬(Char.ofNat 10) = Char.ofNat 13 := by decide
    rw [List.nil_append, slAux_brk acc _ s h1 (by decide)]
    simp
  | cons c l ih =>
    intro acc s
    have hc : isLineBreak c = false := hl c (List.mem_cons_self _ _)
    have hcr : ¬c = Char.ofNat 13 := by
      intro h
      subst h
      simp [isLineBreak] at hc
    rw [List.cons_append, slAux_plain acc c _ hcr (by simp [hc])]
    rw [ih (fun d hd => hl d (List.mem_cons_of_mem _ hd)) (c :: acc) s]
    simp

theorem splitlines_joinNL_lf (L : List (List Char)) (hL : L ≠ [])
    (hlb : ∀ l ∈ L, ∀ c ∈ l, isLineBreak c = false) :
    splitlines (joinNL L ++ [Char.ofNat 10]) = L := by
  induction L with
  | nil => exact absurd rfl hL
  | cons l L ih =>
    rcases L with _ | ⟨l2, L2⟩
    · unfold splitlines
      have : joinNL [l] ++ [Char.ofNat 10] = l ++ Char.ofNat 10 :: [] := by simp [joinNL]
      rw [this, slAux_append_lf l (hlb l (List.mem_cons_self _ _)) [] []]
      rw [slAux_nil_emp [] rfl]
      simp
    · unfold splitlines
      have hj : joinNL (l :: l2 :: L2) ++ [Char.ofNat 10] =
          l ++ Char.ofNat 10 :: (joinNL (l2 :: L2) ++ [Char.ofNat 10]) := by
        rw [joinNL]
        simp
      rw [hj, slAux_append_lf l (hlb l (List.mem_cons_self _ _))]
      have ih2 := ih (by simp) (fun q hq => hlb q (List.mem_cons_of_mem _ hq))
      unfold splitlines at ih2
      rw [List.reverse_nil, List.nil_append, ih2]

theorem splitlines_joinNL (L : List (List Char)) (hL : L ≠ [])
    (hlb : ∀ l ∈ L, ∀ c ∈ l, isLineBreak c = false)
    (hlast : ∀ lst, L.getLast? = some lst → lst ≠ []) :
    splitlines (joinNL L) = L := by
  induction L with
  | nil => exact absurd rfl hL
  | cons l L ih =>
    rcases L with _ | ⟨l2, L2⟩
    · have hl : l ≠ [] := hlast l (by simp)
      unfold splitlines
      rw [joinNL, slAux_no_break l (hlb l (List.mem_cons_self _ _)) []]
      simp [List.isEmpty_iff, hl]
    · unfold splitlines
      have hj : joinNL (l :: l2 :: L2) = l ++ Char.ofNat 10 :: joinNL (l2 :: L2) := by
        rw [joinNL]
      rw [hj, slAux_append_lf l (hlb l (List.mem_cons_self _ _))]
      have ih2 := ih (by simp) (fun q hq => hlb q (List.mem_cons_of_mem _ hq))
        (fun lst hlst => hlast lst (by rw [List.getLast?_cons_cons]; exact hlst))
      unfold splitlines at ih2
      rw [List.reverse_nil, List.nil_append, ih2]

theorem dropWhile_dropWhile (p : Char → Bool) (l : List Char) :
    (l.dropWhile p).dropWhile p = l.dropWhile p := by
  induction l with
  | nil => rfl
  | cons c l ih =>
    by_cases hc : p c = true
    · simp [List.dropWhile_cons, hc, ih]
    · simp [List.dropWhile_cons, hc]

theorem rstrip_idem (l : List Char) : rstrip (rstrip l) = rstrip l := by
  unfold rstrip
  rw [List.reverse_reverse, dropWhile_dropWhile]

theorem rstrip_eq_self (l : List Char) (h : ∀ hd, l.reverse.head? = some hd → pyIsSpace hd = false) :
    rstrip l = l := by
  unfold rstrip
  rcases hrev : l.reverse with _ | ⟨hd, tl⟩
  · simp only [hrev, List.dropWhile_nil, List.reverse_nil]
    exact (List.reverse_eq_nil_iff.mp hrev).symm
  · rw [List.dropWhile_cons, h hd (by rw [hrev]; rfl)]
    simp only [Bool.false_eq_true, reduceIte]
    rw [← hrev, List.reverse_reverse]

theorem joinNL_concat (L : List (List Char)) (x : List Char) (hL : L ≠ []) :
    joinNL (L ++ [x]) = joinNL L ++ Char.ofNat 10 :: x := by
  induction L with
  | nil => exact absurd rfl hL
  | cons l L ih =>
    rcases L with _ | ⟨l2, L2⟩
    · simp [joinNL]
    · show joinNL (l :: l2 :: (L2 ++ [x])) = _
      rw [joinNL.eq_3]
      have : l2 :: (L2 ++ [x]) = (l2 :: L2) ++ [x] := rfl
      rw [this, ih (by simp), joinNL.eq_3]
      simp

theorem getLast?_joinNL (L : List (List Char)) (lst : List Char)
    (hlast : L.getLast? = some lst) (hne : lst ≠ []) :
    (joinNL L).getLast? = lst.getLast? := by
  induction L with
  | nil => simp at hlast
  | cons l L ih =>
    rcases L with _ | ⟨l2, L2⟩
    · simp only [List.getLast?_singleton, Option.some.injEq] at hlast
      subst hlast
      rfl
    · rw [List.getLast?_cons_cons] at hlast
      have hJ := ih hlast
      rw [joinNL.eq_3]
      rcases hJne : joinNL (l2 :: L2) with _ | ⟨j, js⟩
      · rw [hJne, List.getLast?_nil] at hJ
        have hs := List.getLast?_isSome.mpr hne
        rw [← hJ] at hs
        simp at hs
      · rw [← hJne, List.getLast?_append, hJne, List.getLast?_cons_cons, ← hJne, hJ]
        obtain ⟨v, hv⟩ := Option.isSome_iff_exists.mp (List.getLast?_isSome.mpr hne)
        rw [hv]
        rfl

end SubScrub

namespace SubScrub

theorem splitlines_lb_free :
    ∀ acc r, (∀ c ∈ acc, isLineBreak c = false) →
      ∀ l ∈ slAux acc r, ∀ c ∈ l, isLineBreak c = false := by
  intro acc r
  induction acc, r using slAux.induct with
  | case1 acc h =>
    intro hacc l hl
    rw [slAux_nil_emp acc h] at hl
    exact absurd hl (List.not_mem_nil l)
  | case2 acc h =>
    intro hacc l hl c hc
    rw [slAux_nil_ne acc h, List.mem_singleton] at hl
    exact hacc c (List.mem_reverse.mp (hl ▸ hc))
  | case3 acc tail ih =>
    intro hacc l hl c hc
    rw [slAux_crlf] at hl
    rcases List.mem_cons.mp hl with h1 | h1
    · exact hacc c (List.mem_reverse.mp (h1 ▸ hc))
    · exact ih (by simp) l h1 c hc
  | case4 acc ch tail h ih =>
    intro hacc l hl c hc
    rw [slAux_cr_other acc tail ch h] at hl
    rcases List.mem_cons.mp hl with h1 | h1
    · exact hacc c (List.mem_reverse.mp (h1 ▸ hc))
    · exact ih (by simp) l h1 c hc
  | case5 acc =>
    intro hacc l hl c hc
    rw [slAux_cr_last, List.mem_singleton] at hl
    exact hacc c (List.mem_reverse.mp (hl ▸ hc))
  | case6 acc d r h1 h2 ih =>
    intro hacc l hl c hc
    rw [slAux_brk acc d r h1 h2] at hl
    rcases List.mem_cons.mp hl with h3 | h3
    · exact hacc c (List.mem_reverse.mp (h3 ▸ hc))
    · exact ih (by simp) l h3 c hc
  | case7 acc d r h1 h2 ih =>
    intro hacc l hl c hc
    rw [slAux_plain acc d r h1 h2] at hl
    refine ih ?_ l hl c hc
    intro e he
    rcases List.mem_cons.mp he with h3 | h3
    · subst h3
      simpa using h2
    · exact hacc e h3

theorem slAux_ne_nil : ∀ acc r, (acc ≠ [] ∨ r ≠ []) → slAux acc r ≠ [] := by
  intro acc r
  induction acc, r using slAux.induct with
  | case1 acc h =>
    intro hor
    rcases hor with h1 | h1
    · exact absurd (List.isEmpty_iff.mp h) h1
    · exact absurd rfl h1
  | case2 acc h =>
    intro hor
    rw [slAux_nil_ne acc h]
    simp
  | case3 acc tail ih =>
    intro hor
    rw [slAux_crlf]
    simp
  | case4 acc ch tail h ih =>
    intro hor
    rw [slAux_cr_other acc tail ch h]
    simp
  | case5 acc =>
    intro hor
    rw [slAux_cr_last]
    simp
  | case6 acc d r h1 h2 ih =>
    intro hor
    rw [slAux_brk acc d r h1 h2]
    simp
  | case7 acc d r h1 h2 ih =>
    intro hor
    rw [slAux_plain acc d r h1 h2]
    exact ih (Or.inl (by simp))

theorem splitlines_ne_nil (t : List Char) (ht : t ≠ []) : splitlines t ≠ [] :=
  slAux_ne_nil [] t (Or.inr ht)

theorem mem_of_getLast?_eq {α : Type} (L : List α) (a : α) (h : L.getLast? = some a) :
    a ∈ L := by
  induction L with
  | nil => simp at h
  | cons x L ih =>
    rcases L with _ | ⟨y, L2⟩
    · simp only [List.getLast?_singleton, Option.some.injEq] at h
      exact List.mem_singleton.mpr h.symm
    · rw [List.getLast?_cons_cons] at h
      exact List.mem_cons_of_mem _ (ih h)

theorem not_lf_cr_of_not_lb (c : Char) (h : isLineBreak c = false) :
    (c == Char.ofNat 10 || c == Char.ofNat 13) = false := by
  have h10 : ¬c = Char.ofNat 10 := by
    intro e
    rw [e] at h
    simp [isLineBreak] at h
  have h13 : ¬c = Char.ofNat 13 := by
    intro e
    rw [e] at h
    simp [isLineBreak] at h
  simp [h10, h13]

theorem endsNL_concat_lf (A : List Char) : endsNL (A ++ [Char.ofNat 10]) = true := by
  unfold endsNL
  rw [List.getLast?_concat]
  rfl

theorem lineStage_idem (t : List Char) : lineStage (lineStage t) = lineStage t := by
  by_cases ht : t = []
  · subst ht
    rfl
  have hLne : ((splitlines t).map rstrip) ≠ [] := by
    simp only [ne_eq, List.map_eq_nil_iff]
    exact splitlines_ne_nil t ht
  have hlbL : ∀ l ∈ (splitlines t).map rstrip, ∀ c ∈ l, isLineBreak c = false := by
    intro l hl c hc
    obtain ⟨l0, hl0, hrl⟩ := List.mem_map.mp hl
    exact splitlines_lb_free [] t (by simp) l0 hl0 c (mem_rstrip _ _ (hrl ▸ hc))
  have hstripL : ∀ l ∈ (splitlines t).map rstrip, rstrip l = l := by
    intro l hl
    obtain ⟨l0, _, hrl⟩ := List.mem_map.mp hl
    rw [← hrl, rstrip_idem]
  have hmapL : ∀ M : List (List Char), (∀ l ∈ M, rstrip l = l) → M.map rstrip = M := by
    intro M hM
    exact (List.map_congr_left hM : M.map rstrip = M.map id).trans (List.map_id M)
  by_cases hE : endsNL t = true
  · have h1 : lineStage t = joinNL ((splitlines t).map rstrip) ++ [Char.ofNat 10] := by
      unfold lineStage
      rw [if_pos hE]
    rw [h1]
    unfold lineStage
    rw [splitlines_joinNL_lf _ hLne hlbL]
    rw [hmapL _ hstripL]
    rw [if_pos (endsNL_concat_lf _)]
  · have h1 : lineStage t = joinNL ((splitlines t).map rstrip) := by
      unfold lineStage
      rw [if_neg hE, List.append_nil]
    rcases hlast : ((splitlines t).map rstrip).getLast? with _ | lst
    · exact absurd (List.getLast?_eq_none_iff.mp hlast) hLne
    by_cases hlstne : lst = []
    · subst hlstne
      have hgl : ((splitlines t).map rstrip).getLast hLne = [] := by
        have h2 := List.getLast?_eq_getLast _ hLne
        rw [hlast] at h2
        injection h2 with h3
        exact h3.symm
      have hLdecomp : ((splitlines t).map rstrip).dropLast ++ [[]] = (splitlines t).map rstrip := by
        rw [← hgl]
        exact List.dropLast_append_getLast hLne
      by_cases hL' : ((splitlines t).map rstrip).dropLast = []
      · have hLone : (splitlines t).map rstrip = [[]] := by
          rw [← hLdecomp, hL']
          rfl
        rw [h1, hLone]
        rfl
      · have hjoin : joinNL ((splitlines t).map rstrip) =
            joinNL (((splitlines t).map rstrip).dropLast) ++ [Char.ofNat 10] := by
          conv_lhs => rw [← hLdecomp]
          rw [joinNL_concat _ _ hL']
        rw [h1, hjoin]
        unfold lineStage
        have hmemL' : ∀ l ∈ ((splitlines t).map rstrip).dropLast, l ∈ (splitlines t).map rstrip :=
          fun l hl => (List.dropLast_sublist _).mem hl
        rw [splitlines_joinNL_lf _ hL' (fun l hl => hlbL l (hmemL' l hl))]
        rw [hmapL _ (fun l hl => hstripL l (hmemL' l hl))]
        rw [if_pos (endsNL_concat_lf _)]
    · have h2 : splitlines (joinNL ((splitlines t).map rstrip)) = (splitlines t).map rstrip := by
        refine splitlines_joinNL _ hLne hlbL ?_
        intro l hl
        rw [hlast] at hl
        injection hl with h
        subst h
        exact hlstne
      have hE2 : endsNL (joinNL ((splitlines t).map rstrip)) = false := by
        unfold endsNL
        rw [getLast?_joinNL _ lst hlast hlstne]
        obtain ⟨v, hv⟩ := Option.isSome_iff_exists.mp (List.getLast?_isSome.mpr hlstne)
        rw [hv]
        have hvmem : v ∈ lst := mem_of_getLast?_eq lst v hv
        have hlstmem : lst ∈ (splitlines t).map rstrip := mem_of_getLast?_eq _ lst hlast
        have hlb := hlbL lst hlstmem v hvmem
        exact not_lf_cr_of_not_lb v hlb
      rw [h1]
      unfold lineStage
      rw [h2, hmapL _ hstripL, if_neg (by rw [hE2]; simp), List.append_nil]

end SubScrub

namespace SubScrub

theorem sanitize_decomp (t : List Char) :
    sanitize t =
      (lineStage (stage4b (stage4a (stage3 (stage2 (stage1 t).1).1).1).1).1,
       (stage1 t).2 ++ (stage2 (stage1 t).1).2 ++ (stage3 (stage2 (stage1 t).1).1).2 ++
         (stage4a (stage3 (stage2 (stage1 t).1).1).1).2 ++
         (stage4b (stage4a (stage3 (stage2 (stage1 t).1).1).1).1).2) := by
  unfold sanitize
  rfl

theorem mem_stage4a (t : List Char) (c : Char) (hc : c ∈ (stage4a t).1) :
    c ∈ t ∨ c = dquote := by
  unfold stage4a at hc
  by_cases h0 : (subnTrunc t).2 ≠ 0
  · rw [if_pos h0] at hc
    exact mem_subnTrunc t c hc
  · rw [if_neg h0] at hc
    exact Or.inl hc

theorem spaceGo_removes (ch : Char) (hne : ch ≠ ' ') :
    ∀ ps, (∀ p ∈ ps, p.2 = ' ') → (ch, ' ') ∈ ps → ∀ t, ch ∉ (spaceGo ps t).1 := by
  intro ps
  induction ps with
  | nil =>
    intro _ hch
    simp at hch
  | cons p ps ih =>
    intro hall hch t hmem
    obtain ⟨c0, r0⟩ := p
    have hr0 : r0 = ' ' := hall (c0, r0) (List.mem_cons_self _ _)
    subst hr0
    have htail : ∀ q ∈ ps, q.2 = ' ' := fun q hq => hall q (List.mem_cons_of_mem _ hq)
    rcases List.mem_cons.mp hch with hhd | htl
    · rw [Prod.mk.injEq] at hhd
      obtain ⟨hc0, -⟩ := hhd
      subst hc0
      rw [spaceGo] at hmem
      by_cases h0 : t.count ch ≠ 0
      · rw [if_pos h0] at hmem
        rcases mem_spaceGo _ _ _ hmem with hm | ⟨q, hq, hcq⟩
        · rcases List.mem_map.mp hm with ⟨x, hx, hfx⟩
          by_cases hxc : x = ch
          · rw [if_pos hxc] at hfx
            exact hne hfx.symm
          · rw [if_neg hxc] at hfx
            exact hxc (hfx ▸ rfl)
        · exact hne (hcq.trans (htail q hq))
      · rw [if_neg h0] at hmem
        have hnotin : ch ∉ t := List.count_eq_zero.mp (by omega)
        rcases mem_spaceGo _ _ _ hmem with hm | ⟨q, hq, hcq⟩
        · exact hnotin hm
        · exact hne (hcq.trans (htail q hq))
    · rw [spaceGo] at hmem
      by_cases h0 : t.count c0 ≠ 0
      · rw [if_pos h0] at hmem
        exact ih htail htl _ hmem
      · rw [if_neg h0] at hmem
        exact ih htail htl _ hmem

theorem removeGo_removes (ch : Char) :
    ∀ ps, ch ∈ ps → ∀ t, ch ∉ (removeGo ps t).1 := by
  intro ps
  induction ps with
  | nil =>
    intro hch
    simp at hch
  | cons c0 ps ih =>
    intro hch t hmem
    rcases List.mem_cons.mp hch with hhd | htl
    · subst hhd
      rw [removeGo] at hmem
      by_cases h0 : t.count ch ≠ 0
      · rw [if_pos h0] at hmem
        have := mem_removeGo _ _ _ hmem
        rw [List.mem_filter] at this
        simp at this
      · rw [if_neg h0] at hmem
        exact (List.count_eq_zero.mp (by omega)) (mem_removeGo _ _ _ hmem)
    · rw [removeGo] at hmem
      by_cases h0 : t.count c0 ≠ 0
      · rw [if_pos h0] at hmem
        exact ih htl _ hmem
      · rw [if_neg h0] at hmem
        exact ih htl _ hmem

theorem not_mem_sanitize_chain (t : List Char) (c : Char)
    (h2s : c ∉ (stage2 (stage1 t).1).1)
    (hrep : ∀ m ∈ MOJIBAKE_REMAP, c ∉ m.rep)
    (hdq : c ≠ dquote)
    (hnl : c ≠ Char.ofNat 10) :
    c ∉ (sanitize t).1 := by
  rw [sanitize_decomp]
  intro hmem
  rcases mem_lineStage _ _ hmem with h5 | h5
  · have h4 := mem_strayScan _ _ h5
    rcases mem_stage4a _ _ h4 with h3 | h3
    · rcases mem_mojGo _ _ _ h3 with h2 | ⟨m, hm, hcm⟩
      · exact h2s h2
      · exact hrep m hm hcm
    · exact hdq h3
  · exact hnl h5

theorem sanitize_noop_aux (t : List Char)
    (h1 : ∀ p ∈ SPACE_SUBS, p.1 ∉ t)
    (h2 : ∀ ch ∈ REMOVE_CHARS, ch ∉ t)
    (h3 : ∀ m ∈ MOJIBAKE_REMAP, containsSub3 m.k1 m.k2 m.k3 t = false)
    (h4 : containsTruncPat t = false)
    (h5 : containsStrayPat t = false)
    (h6 : lineStage t = t) :
    sanitize t = (t, []) := by
  have e1 : stage1 t = (t, []) := spaceGo_noop _ _ h1
  have e2 : stage2 t = (t, []) := removeGo_noop _ _ h2
  have e3 : stage3 t = (t, []) := mojGo_noop _ _ h3
  have e4 : stage4a t = (t, []) := by
    unfold stage4a
    rw [subnTrunc_noop t h4]
    simp
  have e5 : stage4b t = (t, []) := by
    unfold stage4b
    rw [strayScan_noop t h5]
    simp
  rw [sanitize_decomp]
  rw [e1]
  simp only [e1, e2, e3, e4, e5]
  rw [h6]
  simp

end SubScrub

namespace SubScrub

theorem space_not_mem_sanitize (t : List Char) :
    ∀ p ∈ SPACE_SUBS, p.1 ∉ (sanitize t).1 := by
  have hfacts : ∀ p ∈ SPACE_SUBS, p.2 = ' ' ∧ p.1 ≠ ' ' ∧
      (∀ m ∈ MOJIBAKE_REMAP, p.1 ∉ m.rep) ∧ p.1 ≠ dquote ∧ p.1 ≠ Char.ofNat 10 := by decide
  intro p hp
  obtain ⟨hp2, hpne, hprep, hpdq, hpnl⟩ := hfacts p hp
  refine not_mem_sanitize_chain t p.1 ?_ hprep hpdq hpnl
  intro hmem
  have h1 := mem_removeGo _ _ _ hmem
  have hps : (p.1, ' ') ∈ SPACE_SUBS := by
    rw [← hp2]
    exact hp
  exact spaceGo_removes p.1 hpne SPACE_SUBS (by decide) hps _ h1

theorem remove_not_mem_sanitize (t : List Char) :
    ∀ r ∈ REMOVE_CHARS, r ∉ (sanitize t).1 := by
  have hfacts : ∀ r ∈ REMOVE_CHARS,
      (∀ m ∈ MOJIBAKE_REMAP, r ∉ m.rep) ∧ r ≠ dquote ∧ r ≠ Char.ofNat 10 := by decide
  intro r hr
  obtain ⟨hrrep, hrdq, hrnl⟩ := hfacts r hr
  exact not_mem_sanitize_chain t r (removeGo_removes r REMOVE_CHARS hr _) hrrep hrdq hrnl

theorem not_mem_sanitize_of_not_mem (t : List Char) (c : Char) (hct : c ∉ t)
    (hsp : ∀ q ∈ SPACE_SUBS, c ≠ q.2)
    (hrep : ∀ m ∈ MOJIBAKE_REMAP, c ∉ m.rep)
    (hdq : c ≠ dquote) (hnl : c ≠ Char.ofNat 10) :
    c ∉ (sanitize t).1 := by
  refine not_mem_sanitize_chain t c ?_ hrep hdq hnl
  intro hmem
  have h1 := mem_removeGo _ _ _ hmem
  rcases mem_spaceGo _ _ _ h1 with hm | ⟨q, hq, hcq⟩
  · exact hct hm
  · exact hsp q hq hcq

/-- C1 (amended): on input free of the marker U+00C2 and of the corrupted
lead character U+00E2, `sanitize` is idempotent: re-sanitizing its own
output returns the same text and an empty change log. -/
theorem sanitize_idem_no_markers (t : List Char) (hA : strayMark ∉ t) (ha : aHat ∉ t) :
    sanitize (sanitize t).1 = ((sanitize t).1, []) := by
  have haU : aHat ∉ (sanitize t).1 :=
    not_mem_sanitize_of_not_mem t aHat ha (by decide) (by decide) (by decide) (by decide)
  have hAU : strayMark ∉ (sanitize t).1 :=
    not_mem_sanitize_of_not_mem t strayMark hA (by decide) (by decide) (by decide) (by decide)
  refine sanitize_noop_aux _ (space_not_mem_sanitize t) (remove_not_mem_sanitize t) ?_ ?_ ?_ ?_
  · intro m hm
    have hk1 : m.k1 = aHat := (show ∀ m ∈ MOJIBAKE_REMAP, m.k1 = aHat by decide) m hm
    rw [hk1]
    exact containsSub3_false _ _ _ _ haU
  · exact containsTruncPat_false _ haU
  · exact containsStrayPat_false _ hAU
  · simp only [sanitize_decomp]
    exact lineStage_idem _

/-- Witness for the amended C1 at a concrete input containing a
non-breaking space. -/
theorem sanitize_idem_no_markers_witness :
    strayMark ∉ ['h', Char.ofNat 0xA0, 'i'] ∧ aHat ∉ ['h', Char.ofNat 0xA0, 'i'] ∧
      sanitize (sanitize ['h', Char.ofNat 0xA0, 'i']).1 =
        ((sanitize ['h', Char.ofNat 0xA0, 'i']).1, []) :=
  ⟨by decide, by decide, sanitize_idem_no_markers _ (by decide) (by decide)⟩

/-- C9 (amended): on text containing none of the target characters or
sequences and already in normalized line form (a fixed point of the final
line stage), `sanitize` returns the text unchanged with an empty change
log. -/
theorem sanitize_noop_on_clean (t : List Char)
    (h1 : ∀ p ∈ SPACE_SUBS, p.1 ∉ t)
    (h2 : ∀ ch ∈ REMOVE_CHARS, ch ∉ t)
    (h3 : ∀ m ∈ MOJIBAKE_REMAP, containsSub3 m.k1 m.k2 m.k3 t = false)
    (h4 : containsTruncPat t = false)
    (h5 : containsStrayPat t = false)
    (h6 : lineStage t = t) :
    sanitize t = (t, []) :=
  sanitize_noop_aux t h1 h2 h3 h4 h5 h6

/-- Witness for the amended C9 at a concrete clean two-line text. -/
theorem sanitize_noop_on_clean_witness :
    (∀ p ∈ SPACE_SUBS, p.1 ∉ ['a', 'b', Char.ofNat 10, 'c']) ∧
      (∀ ch ∈ REMOVE_CHARS, ch ∉ ['a', 'b', Char.ofNat 10, 'c']) ∧
      (∀ m ∈ MOJIBAKE_REMAP, containsSub3 m.k1 m.k2 m.k3 ['a', 'b', Char.ofNat 10, 'c'] = false) ∧
      containsTruncPat ['a', 'b', Char.ofNat 10, 'c'] = false ∧
      containsStrayPat ['a', 'b', Char.ofNat 10, 'c'] = false ∧
      lineStage ['a', 'b', Char.ofNat 10, 'c'] = ['a', 'b', Char.ofNat 10, 'c'] ∧
      sanitize ['a', 'b', Char.ofNat 10, 'c'] = (['a', 'b', Char.ofNat 10, 'c'], []) :=
  ⟨by decide, by decide, by decide, by decide, by decide, by decide,
   sanitize_noop_on_clean _ (by decide) (by decide) (by decide) (by decide) (by decide) (by decide)⟩

/-- C10: the sanitized text never contains an exotic-whitespace character
of SPACE_SUBS nor a zero-width/BOM character of REMOVE_CHARS: the removal
passes eliminate them and the later stages insert only ASCII replacement
text and newlines. -/
theorem sanitize_output_no_exotic (t : List Char) :
    ((sanitize t).1.all fun c =>
      !(SPACE_SUBS.any (fun p => p.1 == c) || REMOVE_CHARS.any (fun r => r == c))) = true := by
  rw [List.all_eq_true]
  intro c hc
  rw [Bool.not_eq_true', Bool.or_eq_false_iff]
  constructor
  · rw [List.any_eq_false]
    intro p hp hbeq
    exact (space_not_mem_sanitize t p hp) (by rw [← beq_iff_eq.mp hbeq] at hc; exact hc)
  · rw [List.any_eq_false]
    intro r hr hbeq
    exact (remove_not_mem_sanitize t r hr) (by rw [← beq_iff_eq.mp hbeq] at hc; exact hc)

/-- C4 (amended): the final stage of `sanitize` splits the text produced by
the four repair stages into lines on any recognized line-ending sequence,
strips each line on the right, rejoins with a single LF, appends one
trailing LF if and only if that text ended with LF or CR (not any other
recognized line ending), and contributes no change-log entry. -/
theorem sanitize_final_line_stage (t : List Char) :
    sanitize t =
      (joinNL ((splitlines ((stage4b (stage4a (stage3 (stage2 (stage1 t).1).1).1).1).1)).map rstrip) ++
        (if endsNL ((stage4b (stage4a (stage3 (stage2 (stage1 t).1).1).1).1).1) then [Char.ofNat 10] else []),
       (stage1 t).2 ++ (stage2 (stage1 t).1).2 ++ (stage3 (stage2 (stage1 t).1).1).2 ++
         (stage4a (stage3 (stage2 (stage1 t).1).1).1).2 ++
         (stage4b (stage4a (stage3 (stage2 (stage1 t).1).1).1).1).2) := by
  rw [sanitize_decomp]
  rfl

end SubScrub

namespace SubScrub

theorem head_any_eq_headIsSpace (cs : List Char) :
    (cs.get? 0).any pyIsSpace = headIsSpace cs := by
  cases cs <;> rfl

theorem strayKeep_shift (c : Char) (cs : List Char) (i : Nat) :
    strayKeep (c :: cs) (i + 1) = strayKeep cs i := by
  unfold strayKeep
  rw [List.get?_cons_succ, List.get?_cons_succ]

theorem strayKeep_zero (c : Char) (cs : List Char) :
    strayKeep (c :: cs) 0 = !(c == strayMark && headIsSpace cs) := by
  unfold strayKeep
  rw [List.get?_cons_zero, List.get?_cons_succ, head_any_eq_headIsSpace]
  rfl

theorem strayScan_eq_straySpec (t : List Char) : strayScan t = straySpec t := by
  induction t with
  | nil => rfl
  | cons c cs ih =>
    have hspec : straySpec (c :: cs) =
        (if strayKeep (c :: cs) 0 then [c] else []) ++ straySpec cs := by
      unfold straySpec
      rw [List.length_cons, List.range_succ_eq_map, List.filterMap_cons, List.filterMap_map]
      have hcomp : ((fun i => if strayKeep (c :: cs) i then (c :: cs).get? i else none) ∘ Nat.succ) =
          (fun i => if strayKeep cs i then cs.get? i else none) := by
        funext i
        show (if strayKeep (c :: cs) (i + 1) then (c :: cs).get? (i + 1) else none) = _
        rw [strayKeep_shift, List.get?_cons_succ]
      rw [hcomp]
      by_cases h0 : strayKeep (c :: cs) 0 = true
      · rw [if_pos h0, h0]
        simp only [List.get?_cons_zero]
        rfl
      · rw [if_neg h0]
        rw [Bool.not_eq_true] at h0
        rw [h0]
        rfl
    rw [hspec]
    by_cases hcond : c = strayMark ∧ headIsSpace cs = true
    · have hk : strayKeep (c :: cs) 0 = false := by
        rw [strayKeep_zero]
        obtain ⟨h1, h2⟩ := hcond
        subst h1
        simp [h2]
      rw [strayScan, if_pos hcond, hk, ih]
      rfl
    · have hk : strayKeep (c :: cs) 0 = true := by
        rw [strayKeep_zero]
        rcases Decidable.not_and_iff_or_not.mp hcond with h1 | h1
        · simp [beq_eq_false_iff_ne.mpr h1]
        · simp [Bool.not_eq_true] at h1
          simp [h1]
      rw [strayScan, if_neg hcond, hk, ih]
      rfl

/-- C6 (amended): the stray-marker stage of `sanitize` operates on the text
produced by the earlier stages; within that text it deletes U+00C2 at
exactly the positions whose immediate successor is whitespace, keeps every
other character (in particular the whitespace itself) in order, and logs
one entry whose count is the number of deleted markers exactly when at
least one was deleted. -/
theorem stray_stage_exact (t : List Char) :
    (stage4b t).1 = straySpec t ∧
      (stage4b t).2 = (if t.length - (straySpec t).length ≠ 0 then
        [(strayLabel, t.length - (straySpec t).length)] else []) := by
  constructor
  · exact strayScan_eq_straySpec t
  · show (if t.length - (strayScan t).length ≠ 0 then
        [(strayLabel, t.length - (strayScan t).length)] else []) = _
    rw [strayScan_eq_straySpec]

end SubScrub

namespace SubScrub

theorem letter_not_space (c : Char) (h : isAsciiLetter c = true) : pyIsSpace c = false := by
  simp only [isAsciiLetter, Bool.or_eq_true, Bool.and_eq_true, decide_eq_true_eq] at h
  simp only [pyIsSpace, Bool.or_eq_false_iff, Bool.and_eq_false_iff,
    decide_eq_false_iff_not, Nat.not_le, beq_eq_false_iff_ne, ne_eq]
  omega

theorem letter_not_lb (c : Char) (h : isAsciiLetter c = true) : isLineBreak c = false := by
  simp only [isAsciiLetter, Bool.or_eq_true, Bool.and_eq_true, decide_eq_true_eq] at h
  simp only [isLineBreak, Bool.or_eq_false_iff, Bool.and_eq_false_iff,
    decide_eq_false_iff_not, Nat.not_le, beq_eq_false_iff_ne, ne_eq]
  omega

theorem letter_ne_of_big (c d : Char) (h : isAsciiLetter c = true) (hd : 123 ≤ d.toNat) :
    c ≠ d := by
  intro e
  subst e
  simp only [isAsciiLetter, Bool.or_eq_true, Bool.and_eq_true, decide_eq_true_eq] at h
  omega

theorem space_ne_of_big (d : Char) (hd : 123 ≤ d.toNat) : (' ' : Char) ≠ d := by
  intro e
  have h2 := congrArg Char.toNat e
  rw [show (' ' : Char).toNat = 32 from rfl] at h2
  omega

/-- C7: for a non-breaking space standing between two (ASCII-letter) words,
`sanitize` replaces it by an ordinary space in place and logs exactly one
occurrence under the label encoding code point U+00A0. -/
theorem sanitize_nbsp_between_words (a b : List Char) (ha : a ≠ []) (hb : b ≠ [])
    (hA : ∀ c ∈ a, isAsciiLetter c = true) (hB : ∀ c ∈ b, isAsciiLetter c = true) :
    sanitize (a ++ Char.ofNat 0xA0 :: b) =
      (a ++ ' ' :: b, [("replaced " ++ hexStr 0xA0, 1)]) := by
  have hletters : ∀ c, c ∈ a ∨ c = ' ' ∨ c ∈ b → isAsciiLetter c = true ∨ c = ' ' := by
    intro c hc
    rcases hc with h | h | h
    · exact Or.inl (hA c h)
    · exact Or.inr h
    · exact Or.inl (hB c h)
  have hbig : ∀ d : Char, 123 ≤ d.toNat → d ∉ a ++ ' ' :: b := by
    intro d hd hm
    rcases List.mem_append.mp hm with h | h
    · exact letter_ne_of_big d d (hA d h) hd rfl
    · rcases List.mem_cons.mp h with h1 | h1
      · exact space_ne_of_big d hd h1.symm
      · exact letter_ne_of_big d d (hB d h1) hd rfl
  -- stage 1: the first table entry fires exactly once, the rest are no-ops
  have hcount : (a ++ Char.ofNat 0xA0 :: b).count (Char.ofNat 0xA0) = 1 := by
    rw [List.count_append, List.count_cons_self]
    have hca : a.count (Char.ofNat 0xA0) = 0 :=
      List.count_eq_zero.mpr (fun hm => letter_ne_of_big _ _ (hA _ hm) (by decide) rfl)
    have hcb : b.count (Char.ofNat 0xA0) = 0 :=
      List.count_eq_zero.mpr (fun hm => letter_ne_of_big _ _ (hB _ hm) (by decide) rfl)
    omega
  have hmap : (a ++ Char.ofNat 0xA0 :: b).map
      (fun c => if c = Char.ofNat 0xA0 then ' ' else c) = a ++ ' ' :: b := by
    rw [List.map_append, List.map_cons, if_pos rfl]
    have hm1 : a.map (fun c => if c = Char.ofNat 0xA0 then ' ' else c) = a := by
      refine (List.map_congr_left ?_).trans (List.map_id a)
      intro x hx
      rw [if_neg (letter_ne_of_big _ _ (hA x hx) (by decide))]
      rfl
    have hm2 : b.map (fun c => if c = Char.ofNat 0xA0 then ' ' else c) = b := by
      refine (List.map_congr_left ?_).trans (List.map_id b)
      intro x hx
      rw [if_neg (letter_ne_of_big _ _ (hB x hx) (by decide))]
      rfl
    rw [hm1, hm2]
  have hst1 : stage1 (a ++ Char.ofNat 0xA0 :: b) =
      (a ++ ' ' :: b, [("replaced " ++ hexStr 0xA0, 1)]) := by
    show spaceGo SPACE_SUBS _ = _
    rw [show SPACE_SUBS = (Char.ofNat 0xA0, ' ') ::
      [(Char.ofNat 0x202F, ' '), (Char.ofNat 0x2007, ' '), (Char.ofNat 0x2008, ' '),
       (Char.ofNat 0x2009, ' '), (Char.ofNat 0x200A, ' ')] from rfl]
    rw [spaceGo]
    rw [hcount]
    rw [if_pos (by omega : (1 : Nat) ≠ 0)]
    rw [hmap]
    rw [spaceGo_noop _ _ (by
      intro p hp
      simp only [List.mem_cons, List.not_mem_nil, or_false] at hp
      rcases hp with h | h | h | h | h
      all_goals subst h
      all_goals exact hbig _ (by decide))]
    rfl
  have hst2 : stage2 (a ++ ' ' :: b) = (a ++ ' ' :: b, []) := by
    refine removeGo_noop _ _ ?_
    intro ch hch
    simp only [REMOVE_CHARS, List.mem_cons, List.not_mem_nil, or_false] at hch
    rcases hch with h | h | h | h
    all_goals subst h
    all_goals exact hbig _ (by decide)
  have hahat : aHat ∉ a ++ ' ' :: b := hbig aHat (by decide)
  have hst3 : stage3 (a ++ ' ' :: b) = (a ++ ' ' :: b, []) := by
    refine mojGo_noop _ _ ?_
    intro m hm
    have hk1 : m.k1 = aHat := (show ∀ m ∈ MOJIBAKE_REMAP, m.k1 = aHat by decide) m hm
    rw [hk1]
    exact containsSub3_false _ _ _ _ hahat
  have hst4a : stage4a (a ++ ' ' :: b) = (a ++ ' ' :: b, []) := by
    unfold stage4a
    rw [subnTrunc_noop _ (containsTruncPat_false _ hahat)]
    simp
  have hst4b : stage4b (a ++ ' ' :: b) = (a ++ ' ' :: b, []) := by
    unfold stage4b
    rw [strayScan_noop _ (containsStrayPat_false _ (hbig strayMark (by decide)))]
    simp
  have hlb : ∀ c ∈ a ++ ' ' :: b, isLineBreak c = false := by
    intro c hc
    rcases List.mem_append.mp hc with h | h
    · exact letter_not_lb c (hA c h)
    · rcases List.mem_cons.mp h with h1 | h1
      · subst h1
        decide
      · exact letter_not_lb c (hB c h1)
  have hsplit : splitlines (a ++ ' ' :: b) = [a ++ ' ' :: b] := by
    show slAux [] _ = _
    rw [slAux_no_break _ hlb []]
    simp
  have hlastb : ∃ v, (a ++ ' ' :: b).getLast? = some v ∧ isAsciiLetter v = true := by
    obtain ⟨v, hv⟩ := Option.isSome_iff_exists.mp (List.getLast?_isSome.mpr hb)
    refine ⟨v, ?_, hB v (mem_of_getLast?_eq b v hv)⟩
    rw [List.getLast?_append]
    rcases b with _ | ⟨x, xs⟩
    · exact absurd rfl hb
    · rw [List.getLast?_cons_cons, hv]
      rfl
  have hline : lineStage (a ++ ' ' :: b) = a ++ ' ' :: b := by
    obtain ⟨v, hv, hvlet⟩ := hlastb
    unfold lineStage
    rw [hsplit]
    have hr : rstrip (a ++ ' ' :: b) = a ++ ' ' :: b := by
      refine rstrip_eq_self _ ?_
      intro hd hhd
      rw [List.head?_reverse] at hhd
      rw [hv] at hhd
      injection hhd with h
      subst h
      exact letter_not_space _ hvlet
    have hE : endsNL (a ++ ' ' :: b) = false := by
      unfold endsNL
      rw [hv]
      exact not_lf_cr_of_not_lb v (letter_not_lb v hvlet)
    rw [List.map_cons, hr, hE]
    show joinNL [a ++ ' ' :: b] ++ [] = _
    rw [List.append_nil]
    rfl
  rw [sanitize_decomp, hst1]
  simp only [hst1, hst2, hst3, hst4a, hst4b]
  rw [hline]
  rfl

/-- Witness for C7 at the concrete words "don" and "t". -/
theorem sanitize_nbsp_between_words_witness :
    (['d', 'o', 'n'] : List Char) ≠ [] ∧ (['t'] : List Char) ≠ [] ∧
      (∀ c ∈ ['d', 'o', 'n'], isAsciiLetter c = true) ∧
      (∀ c ∈ ['t'], isAsciiLetter c = true) ∧
      sanitize (['d', 'o', 'n'] ++ Char.ofNat 0xA0 :: ['t']) =
        (['d', 'o', 'n'] ++ ' ' :: ['t'], [("replaced " ++ hexStr 0xA0, 1)]) :=
  ⟨by decide, by decide, by decide, by decide,
   sanitize_nbsp_between_words _ _ (by decide) (by decide) (by decide) (by decide)⟩

end SubScrub

namespace SubScrub

theorem pres_map (f : Char → Char) (hf1 : f aHat = aHat) (hf2 : f euro = euro)
    (hf3 : ∀ c, pyIsSpace c = true → pyIsSpace (f c) = true)
    (hf4 : ∀ c, closeChars.contains c = true → f c = c)
    (x y : List Char) (hy : trigB y = true) :
    ∃ x2 y2, (x ++ aHat :: euro :: y).map f = x2 ++ aHat :: euro :: y2 ∧ trigB y2 = true := by
  refine ⟨x.map f, y.map f, ?_, ?_⟩
  · rw [List.map_append, List.map_cons, List.map_cons, hf1, hf2]
  · cases y with
    | nil => rfl
    | cons h ys =>
      rw [List.map_cons, trigB]
      rw [trigB] at hy
      simp only [Bool.or_eq_true] at hy
      rcases hy with hw | hcl
      · rw [hf3 h hw]
        rfl
      · rw [hf4 h hcl]
        rw [hcl]
        simp

theorem pres_filter (ch : Char) (h1 : aHat ≠ ch) (h2 : euro ≠ ch)
    (h3 : pyIsSpace ch = false) (h4 : closeChars.contains ch = false)
    (x y : List Char) (hy : trigB y = true) :
    ∃ x2 y2, (x ++ aHat :: euro :: y).filter (fun c => c != ch) = x2 ++ aHat :: euro :: y2 ∧
      trigB y2 = true := by
  refine ⟨x.filter (fun c => c != ch), y.filter (fun c => c != ch), ?_, ?_⟩
  · rw [List.filter_append, List.filter_cons, List.filter_cons]
    rw [if_pos (by simp [bne_iff_ne]; exact h1), if_pos (by simp [bne_iff_ne]; exact h2)]
  · cases y with
    | nil => rfl
    | cons h ys =>
      rw [trigB] at hy
      have hne : h ≠ ch := by
        have hy2 := hy
        simp only [Bool.or_eq_true] at hy2
        rcases hy2 with hw | hcl
        · intro e
          rw [e, h3] at hw
          exact Bool.false_ne_true hw
        · intro e
          rw [e, h4] at hcl
          exact Bool.false_ne_true hcl
      rw [List.filter_cons, if_pos (by simp [bne_iff_ne]; exact hne), trigB]
      exact hy

theorem occStep (k3 : Char) (rep : List Char) (hk3w : pyIsSpace k3 = false)
    (hk3c : closeChars.contains k3 = false) :
    ∀ y, trigB y = true →
      ∃ y2, replace3 aHat euro k3 rep (aHat :: euro :: y) = aHat :: euro :: y2 ∧
        trigB y2 = true := by
  intro y hy
  cases y with
  | nil => exact ⟨[], by simp [replace3], rfl⟩
  | cons z r =>
    have hz : ¬(aHat = aHat ∧ euro = euro ∧ z = k3) := by
      rintro ⟨-, -, hzz⟩
      subst hzz
      rw [trigB] at hy
      rw [hk3w, hk3c] at hy
      exact Bool.false_ne_true hy
    rw [replace3, if_neg hz]
    cases r with
    | nil => exact ⟨[z], by simp [replace3], hy⟩
    | cons w r2 =>
      have hz2 : ¬(euro = aHat ∧ z = euro ∧ w = k3) := by
        rintro ⟨h, -, -⟩
        exact (by decide : euro ≠ aHat) h
      rw [replace3, if_neg hz2]
      cases r2 with
      | nil => exact ⟨[z, w], by simp [replace3], hy⟩
      | cons u r3 =>
        have hz3 : ¬(z = aHat ∧ w = euro ∧ u = k3) := by
          rintro ⟨h, -, -⟩
          subst h
          rw [trigB] at hy
          rw [(by decide : pyIsSpace aHat = false), (by decide : closeChars.contains aHat = false)] at hy
          exact Bool.false_ne_true hy
        rw [replace3, if_neg hz3]
        refine ⟨z :: replace3 aHat euro k3 rep (w :: u :: r3), rfl, ?_⟩
        rw [trigB] at hy ⊢
        exact hy

theorem pres_replace3 (k3 : Char) (rep : List Char) (hk3a : k3 ≠ aHat)
    (hk3w : pyIsSpace k3 = false) (hk3c : closeChars.contains k3 = false) :
    ∀ n (x : List Char), x.length ≤ n → ∀ y, trigB y = true →
      ∃ x2 y2, replace3 aHat euro k3 rep (x ++ aHat :: euro :: y) = x2 ++ aHat :: euro :: y2 ∧
        trigB y2 = true := by
  intro n
  induction n with
  | zero =>
    intro x hx y hy
    have hxnil : x = [] := List.length_eq_zero.mp (Nat.le_zero.mp hx)
    subst hxnil
    obtain ⟨y2, he, ht⟩ := occStep k3 rep hk3w hk3c y hy
    exact ⟨[], y2, by rw [List.nil_append, he]; rfl, ht⟩
  | succ n ih =>
    intro x hx y hy
    cases x with
    | nil =>
      obtain ⟨y2, he, ht⟩ := occStep k3 rep hk3w hk3c y hy
      exact ⟨[], y2, by rw [List.nil_append, he]; rfl, ht⟩
    | cons c x' =>
      cases x' with
      | nil =>
        have hcond : ¬(c = aHat ∧ aHat = euro ∧ euro = k3) := by
          rintro ⟨-, h, -⟩
          exact (by decide : aHat ≠ euro) h
        rw [List.cons_append, List.nil_append, replace3, if_neg hcond]
        obtain ⟨y2, he, ht⟩ := occStep k3 rep hk3w hk3c y hy
        exact ⟨[c], y2, by rw [he]; rfl, ht⟩
      | cons z x'' =>
        cases x'' with
        | nil =>
          have hcond : ¬(c = aHat ∧ z = euro ∧ aHat = k3) := by
            rintro ⟨-, -, h⟩
            exact hk3a h.symm
          rw [List.cons_append, List.cons_append, List.nil_append, replace3, if_neg hcond]
          obtain ⟨x2, y2, he, ht⟩ := ih [z] (by simp only [List.length_cons, List.length_nil] at hx ⊢; omega) y hy
          rw [List.cons_append, List.nil_append] at he
          exact ⟨c :: x2, y2, by rw [he]; rfl, ht⟩
        | cons u x''' =>
          by_cases hcond : c = aHat ∧ z = euro ∧ u = k3
          · rw [List.cons_append, List.cons_append, List.cons_append, replace3, if_pos hcond]
            obtain ⟨x2, y2, he, ht⟩ := ih x''' (by simp only [List.length_cons] at hx; omega) y hy
            exact ⟨rep ++ x2, y2, by rw [he, List.append_assoc], ht⟩
          · rw [List.cons_append, List.cons_append, List.cons_append, replace3, if_neg hcond]
            obtain ⟨x2, y2, he, ht⟩ := ih (z :: u :: x''') (by simp only [List.length_cons] at hx ⊢; omega) y hy
            rw [List.cons_append, List.cons_append] at he
            exact ⟨c :: x2, y2, by rw [he]; rfl, ht⟩

theorem subnTrunc_pos :
    ∀ n (x : List Char), x.length ≤ n → ∀ y, trigB y = true →
      1 ≤ (subnTrunc (x ++ aHat :: euro :: y)).2 := by
  intro n
  induction n with
  | zero =>
    intro x hx y hy
    have hxnil : x = [] := List.length_eq_zero.mp (Nat.le_zero.mp hx)
    subst hxnil
    rw [List.nil_append, subnTrunc, if_pos ⟨rfl, rfl, hy⟩]
    show 1 ≤ (subnTrunc y).2 + 1
    omega
  | succ n ih =>
    intro x hx y hy
    cases x with
    | nil =>
      rw [List.nil_append, subnTrunc, if_pos ⟨rfl, rfl, hy⟩]
      show 1 ≤ (subnTrunc y).2 + 1
      omega
    | cons c x' =>
      cases x' with
      | nil =>
        have hcond : ¬(c = aHat ∧ aHat = euro ∧ trigB (euro :: y) = true) := by
          rintro ⟨-, h, -⟩
          exact (by decide : aHat ≠ euro) h
        rw [List.cons_append, List.nil_append, subnTrunc, if_neg hcond]
        have := ih [] (by simp only [List.length_nil]; omega) y hy
        rw [List.nil_append] at this
        exact this
      | cons z x'' =>
        by_cases hcond : c = aHat ∧ z = euro ∧ trigB (x'' ++ aHat :: euro :: y) = true
        · rw [List.cons_append, List.cons_append, subnTrunc, if_pos hcond]
          show 1 ≤ (subnTrunc (x'' ++ aHat :: euro :: y)).2 + 1
          omega
        · rw [List.cons_append, List.cons_append, subnTrunc, if_neg hcond]
          have := ih (z :: x'') (by simp only [List.length_cons] at hx ⊢; omega) y hy
          rw [List.cons_append] at this
          exact this

end SubScrub

namespace SubScrub

theorem subnTrunc_mem_dquote (t : List Char) (h : 1 ≤ (subnTrunc t).2) :
    dquote ∈ (subnTrunc t).1 := by
  induction t using subnTrunc.induct with
  | case1 x y r hm ih =>
    rw [subnTrunc, if_pos hm]
    exact List.mem_cons_self _ _
  | case2 x y r hm ih =>
    rw [subnTrunc, if_neg hm] at h ⊢
    exact List.mem_cons_of_mem _ (ih h)
  | case3 t h2 =>
    rcases t with _ | ⟨u, _ | ⟨v, r⟩⟩
    · simp [subnTrunc] at h
    · simp [subnTrunc] at h
    · exact absurd rfl (h2 u v r)

theorem strayScan_mem_keep (t : List Char) (c : Char) (hc : c ∈ t) (hne : c ≠ strayMark) :
    c ∈ strayScan t := by
  induction t using strayScan.induct with
  | case1 x r hm ih =>
    rw [strayScan, if_pos hm]
    rcases List.mem_cons.mp hc with h1 | h1
    · exact absurd (h1.trans hm.1) hne
    · exact ih h1
  | case2 x r hm ih =>
    rw [strayScan, if_neg hm]
    rcases List.mem_cons.mp hc with h1 | h1
    · exact h1 ▸ List.mem_cons_self _ _
    · exact List.mem_cons_of_mem _ (ih h1)
  | case3 => exact absurd hc (List.not_mem_nil c)

theorem slAux_mem_exists :
    ∀ acc r (c : Char), isLineBreak c = false → c ∈ acc ∨ c ∈ r →
      ∃ l ∈ slAux acc r, c ∈ l := by
  intro acc r
  induction acc, r using slAux.induct with
  | case1 acc h =>
    intro c hlb hor
    rcases hor with h1 | h1
    · rw [List.isEmpty_iff.mp h] at h1
      exact absurd h1 (List.not_mem_nil c)
    · exact absurd h1 (List.not_mem_nil c)
  | case2 acc h =>
    intro c hlb hor
    rcases hor with h1 | h1
    · exact ⟨acc.reverse, by rw [slAux_nil_ne acc h]; exact List.mem_singleton_self _,
        List.mem_reverse.mpr h1⟩
    · exact absurd h1 (List.not_mem_nil c)
  | case3 acc tail ih =>
    intro c hlb hor
    rw [slAux_crlf]
    rcases hor with h1 | h1
    · exact ⟨acc.reverse, List.mem_cons_self _ _, List.mem_reverse.mpr h1⟩
    · rcases List.mem_cons.mp h1 with h2 | h2
      · subst h2
        simp [isLineBreak] at hlb
      · rcases List.mem_cons.mp h2 with h3 | h3
        · subst h3
          simp [isLineBreak] at hlb
        · obtain ⟨l, hl, hcl⟩ := ih c hlb (Or.inr h3)
          exact ⟨l, List.mem_cons_of_mem _ hl, hcl⟩
  | case4 acc ch tail h ih =>
    intro c hlb hor
    rw [slAux_cr_other acc tail ch h]
    rcases hor with h1 | h1
    · exact ⟨acc.reverse, List.mem_cons_self _ _, List.mem_reverse.mpr h1⟩
    · rcases List.mem_cons.mp h1 with h2 | h2
      · subst h2
        simp [isLineBreak] at hlb
      · obtain ⟨l, hl, hcl⟩ := ih c hlb (Or.inr h2)
        exact ⟨l, List.mem_cons_of_mem _ hl, hcl⟩
  | case5 acc =>
    intro c hlb hor
    rw [slAux_cr_last]
    rcases hor with h1 | h1
    · exact ⟨acc.reverse, List.mem_singleton_self _, List.mem_reverse.mpr h1⟩
    · rcases List.mem_cons.mp h1 with h2 | h2
      · subst h2
        simp [isLineBreak] at hlb
      · exact absurd h2 (List.not_mem_nil c)
  | case6 acc d r h1 h2 ih =>
    intro c hlb hor
    rw [slAux_brk acc d r h1 h2]
    rcases hor with h3 | h3
    · exact ⟨acc.reverse, List.mem_cons_self _ _, List.mem_reverse.mpr h3⟩
    · rcases List.mem_cons.mp h3 with h4 | h4
      · subst h4
        rw [h2] at hlb
        exact absurd hlb (by simp)
      · obtain ⟨l, hl, hcl⟩ := ih c hlb (Or.inr h4)
        exact ⟨l, List.mem_cons_of_mem _ hl, hcl⟩
  | case7 acc d r h1 h2 ih =>
    intro c hlb hor
    rw [slAux_plain acc d r h1 h2]
    rcases hor with h3 | h3
    · exact ih c hlb (Or.inl (List.mem_cons_of_mem _ h3))
    · rcases List.mem_cons.mp h3 with h4 | h4
      · exact ih c hlb (Or.inl (h4 ▸ List.mem_cons_self _ _))
      · exact ih c hlb (Or.inr h4)

theorem mem_dropWhile_of (p : Char → Bool) (l : List Char) (c : Char)
    (hc : c ∈ l) (hp : p c = false) : c ∈ l.dropWhile p := by
  induction l with
  | nil => exact absurd hc (List.not_mem_nil c)
  | cons d s ih =>
    rw [List.dropWhile_cons]
    by_cases hd : p d = true
    · rw [if_pos hd]
      rcases List.mem_cons.mp hc with h1 | h1
      · subst h1
        rw [hd] at hp
        exact absurd hp (by simp)
      · exact ih h1
    · rw [if_neg hd]
      exact hc

theorem mem_rstrip_of (l : List Char) (c : Char) (hc : c ∈ l)
    (hws : pyIsSpace c = false) : c ∈ rstrip l := by
  unfold rstrip
  rw [List.mem_reverse]
  exact mem_dropWhile_of _ _ _ (List.mem_reverse.mpr hc) hws

theorem mem_joinNL_of : ∀ (L : List (List Char)) l (c : Char), l ∈ L → c ∈ l → c ∈ joinNL L := by
  intro L
  induction L using joinNL.induct with
  | case1 =>
    intro l c hl
    exact absurd hl (List.not_mem_nil l)
  | case2 m =>
    intro l c hl hc
    rw [List.mem_singleton] at hl
    subst hl
    exact hc
  | case3 m m2 ms ih =>
    intro l c hl hc
    rw [joinNL.eq_3]
    rcases List.mem_cons.mp hl with h1 | h1
    · exact List.mem_append.mpr (Or.inl (h1 ▸ hc))
    · exact List.mem_append.mpr (Or.inr (List.mem_cons_of_mem _ (ih l c h1 hc)))

theorem mem_lineStage_of (t : List Char) (c : Char) (hc : c ∈ t)
    (hws : pyIsSpace c = false) (hlb : isLineBreak c = false) : c ∈ lineStage t := by
  obtain ⟨l, hl, hcl⟩ := slAux_mem_exists [] t c hlb (Or.inr hc)
  unfold lineStage
  refine List.mem_append.mpr (Or.inl ?_)
  exact mem_joinNL_of _ (rstrip l) c (List.mem_map_of_mem rstrip hl) (mem_rstrip_of l c hcl hws)

theorem spaceGo_labels :
    ∀ ps (t : List Char) e, e ∈ (spaceGo ps t).2 →
      ∃ p ∈ ps, e.1 = "replaced " ++ hexStr p.1.toNat := by
  intro ps
  induction ps with
  | nil =>
    intro t e he
    exact absurd he (List.not_mem_nil e)
  | cons p ps ih =>
    intro t e he
    obtain ⟨ch, rep⟩ := p
    by_cases h0 : t.count ch ≠ 0
    · have hgo : (spaceGo ((ch, rep) :: ps) t).2 =
          ("replaced " ++ hexStr ch.toNat, t.count ch) ::
            (spaceGo ps (t.map fun c => if c = ch then rep else c)).2 := by
        rw [spaceGo, if_pos h0]
      rw [hgo] at he
      rcases List.mem_cons.mp he with h1 | h1
      · exact ⟨(ch, rep), List.mem_cons_self _ _, by rw [h1]⟩
      · obtain ⟨q, hq, hqe⟩ := ih _ e h1
        exact ⟨q, List.mem_cons_of_mem _ hq, hqe⟩
    · have hgo : (spaceGo ((ch, rep) :: ps) t).2 = (spaceGo ps t).2 := by
        rw [spaceGo, if_neg h0]
      rw [hgo] at he
      obtain ⟨q, hq, hqe⟩ := ih _ e he
      exact ⟨q, List.mem_cons_of_mem _ hq, hqe⟩

theorem removeGo_labels :
    ∀ ps (t : List Char) e, e ∈ (removeGo ps t).2 →
      ∃ ch ∈ ps, e.1 = "removed " ++ hexStr ch.toNat := by
  intro ps
  induction ps with
  | nil =>
    intro t e he
    exact absurd he (List.not_mem_nil e)
  | cons ch ps ih =>
    intro t e he
    by_cases h0 : t.count ch ≠ 0
    · have hgo : (removeGo (ch :: ps) t).2 =
          ("removed " ++ hexStr ch.toNat, t.count ch) ::
            (removeGo ps (t.filter fun c => c != ch)).2 := by
        rw [removeGo, if_pos h0]
      rw [hgo] at he
      rcases List.mem_cons.mp he with h1 | h1
      · exact ⟨ch, List.mem_cons_self _ _, by rw [h1]⟩
      · obtain ⟨q, hq, hqe⟩ := ih _ e h1
        exact ⟨q, List.mem_cons_of_mem _ hq, hqe⟩
    · have hgo : (removeGo (ch :: ps) t).2 = (removeGo ps t).2 := by
        rw [removeGo, if_neg h0]
      rw [hgo] at he
      obtain ⟨q, hq, hqe⟩ := ih _ e he
      exact ⟨q, List.mem_cons_of_mem _ hq, hqe⟩

theorem mojGo_labels :
    ∀ ms (t : List Char) e, e ∈ (mojGo ms t).2 → ∃ m ∈ ms, e.1 = m.label := by
  intro ms
  induction ms with
  | nil =>
    intro t e he
    exact absurd he (List.not_mem_nil e)
  | cons m ms ih =>
    intro t e he
    by_cases h0 : count3 m.k1 m.k2 m.k3 t ≠ 0
    · have hgo : (mojGo (m :: ms) t).2 =
          (m.label, count3 m.k1 m.k2 m.k3 t) ::
            (mojGo ms (replace3 m.k1 m.k2 m.k3 m.rep t)).2 := by
        rw [mojGo, if_pos h0]
      rw [hgo] at he
      rcases List.mem_cons.mp he with h1 | h1
      · exact ⟨m, List.mem_cons_self _ _, by rw [h1]⟩
      · obtain ⟨q, hq, hqe⟩ := ih _ e h1
        exact ⟨q, List.mem_cons_of_mem _ hq, hqe⟩
    · have hgo : (mojGo (m :: ms) t).2 = (mojGo ms t).2 := by
        rw [mojGo, if_neg h0]
      rw [hgo] at he
      obtain ⟨q, hq, hqe⟩ := ih _ e he
      exact ⟨q, List.mem_cons_of_mem _ hq, hqe⟩

theorem lookup_append_none {β : Type} (k : String) (l1 l2 : List (String × β))
    (h : ∀ e ∈ l1, (k == e.1) = false) :
    List.lookup k (l1 ++ l2) = List.lookup k l2 := by
  induction l1 with
  | nil => rfl
  | cons e l1 ih =>
    obtain ⟨k1, v1⟩ := e
    have he : (k == k1) = false := h (k1, v1) (List.mem_cons_self _ _)
    rw [List.cons_append, List.lookup, he]
    exact ih (fun q hq => h q (List.mem_cons_of_mem _ hq))

theorem lookup_cons_self {β : Type} (k : String) (v : β) (l : List (String × β)) :
    List.lookup k ((k, v) :: l) = some v := by
  rw [List.lookup, beq_self_eq_true]

end SubScrub

namespace SubScrub

theorem spaceGo_pres :
    ∀ ps, (∀ p ∈ ps, p.2 = ' ' ∧ aHat ≠ p.1 ∧ euro ≠ p.1 ∧ closeChars.contains p.1 = false) →
      ∀ x y, trigB y = true →
        ∃ x2 y2, (spaceGo ps (x ++ aHat :: euro :: y)).1 = x2 ++ aHat :: euro :: y2 ∧
          trigB y2 = true := by
  intro ps
  induction ps with
  | nil =>
    intro _ x y hy
    exact ⟨x, y, rfl, hy⟩
  | cons p ps ih =>
    intro hps x y hy
    obtain ⟨c0, r0⟩ := p
    obtain ⟨hr0, ha0, he0, hc0⟩ := hps (c0, r0) (List.mem_cons_self _ _)
    simp only at hr0 ha0 he0 hc0
    subst hr0
    have htail := fun q hq => hps q (List.mem_cons_of_mem _ hq)
    by_cases h0 : (x ++ aHat :: euro :: y).count c0 ≠ 0
    · have hgo : (spaceGo ((c0, ' ') :: ps) (x ++ aHat :: euro :: y)).1 =
          (spaceGo ps ((x ++ aHat :: euro :: y).map
            (fun c => if c = c0 then ' ' else c))).1 := by
        rw [spaceGo, if_pos h0]
      rw [hgo]
      obtain ⟨x1, y1, he1, ht1⟩ := pres_map (fun c => if c = c0 then ' ' else c)
        (by
          show (if aHat = c0 then ' ' else aHat) = aHat
          rw [if_neg ha0])
        (by
          show (if euro = c0 then ' ' else euro) = euro
          rw [if_neg he0])
        (by
          intro c hcw
          show pyIsSpace (if c = c0 then ' ' else c) = true
          by_cases hcc : c = c0
          · rw [if_pos hcc]
            decide
          · rw [if_neg hcc]
            exact hcw)
        (by
          intro c hcl
          show (if c = c0 then ' ' else c) = c
          by_cases hcc : c = c0
          · subst hcc
            rw [hcl] at hc0
            exact absurd hc0 (by simp)
          · rw [if_neg hcc])
        x y hy
      rw [he1]
      exact ih htail x1 y1 ht1
    · have hgo : (spaceGo ((c0, ' ') :: ps) (x ++ aHat :: euro :: y)).1 =
          (spaceGo ps (x ++ aHat :: euro :: y)).1 := by
        rw [spaceGo, if_neg h0]
      rw [hgo]
      exact ih htail x y hy

theorem removeGo_pres :
    ∀ ps, (∀ r ∈ ps, aHat ≠ r ∧ euro ≠ r ∧ pyIsSpace r = false ∧ closeChars.contains r = false) →
      ∀ x y, trigB y = true →
        ∃ x2 y2, (removeGo ps (x ++ aHat :: euro :: y)).1 = x2 ++ aHat :: euro :: y2 ∧
          trigB y2 = true := by
  intro ps
  induction ps with
  | nil =>
    intro _ x y hy
    exact ⟨x, y, rfl, hy⟩
  | cons c0 ps ih =>
    intro hps x y hy
    obtain ⟨ha0, he0, hw0, hc0⟩ := hps c0 (List.mem_cons_self _ _)
    have htail := fun q hq => hps q (List.mem_cons_of_mem _ hq)
    by_cases h0 : (x ++ aHat :: euro :: y).count c0 ≠ 0
    · have hgo : (removeGo (c0 :: ps) (x ++ aHat :: euro :: y)).1 =
          (removeGo ps ((x ++ aHat :: euro :: y).filter (fun c => c != c0))).1 := by
        rw [removeGo, if_pos h0]
      rw [hgo]
      obtain ⟨x1, y1, he1, ht1⟩ := pres_filter c0 ha0 he0 hw0 hc0 x y hy
      rw [he1]
      exact ih htail x1 y1 ht1
    · have hgo : (removeGo (c0 :: ps) (x ++ aHat :: euro :: y)).1 =
          (removeGo ps (x ++ aHat :: euro :: y)).1 := by
        rw [removeGo, if_neg h0]
      rw [hgo]
      exact ih htail x y hy

theorem mojGo_pres :
    ∀ ms, (∀ m ∈ ms, m.k1 = aHat ∧ m.k2 = euro ∧ m.k3 ≠ aHat ∧ pyIsSpace m.k3 = false ∧
        closeChars.contains m.k3 = false) →
      ∀ x y, trigB y = true →
        ∃ x2 y2, (mojGo ms (x ++ aHat :: euro :: y)).1 = x2 ++ aHat :: euro :: y2 ∧
          trigB y2 = true := by
  intro ms
  induction ms with
  | nil =>
    intro _ x y hy
    exact ⟨x, y, rfl, hy⟩
  | cons m ms ih =>
    intro hms x y hy
    obtain ⟨hk1, hk2, hk3a, hk3w, hk3c⟩ := hms m (List.mem_cons_self _ _)
    have htail := fun q hq => hms q (List.mem_cons_of_mem _ hq)
    by_cases h0 : count3 m.k1 m.k2 m.k3 (x ++ aHat :: euro :: y) ≠ 0
    · have hgo : (mojGo (m :: ms) (x ++ aHat :: euro :: y)).1 =
          (mojGo ms (replace3 m.k1 m.k2 m.k3 m.rep (x ++ aHat :: euro :: y))).1 := by
        rw [mojGo, if_pos h0]
      rw [hgo, hk1, hk2]
      obtain ⟨x1, y1, he1, ht1⟩ :=
        pres_replace3 m.k3 m.rep hk3a hk3w hk3c x.length x (le_refl _) y hy
      rw [he1]
      exact ih htail x1 y1 ht1
    · have hgo : (mojGo (m :: ms) (x ++ aHat :: euro :: y)).1 =
          (mojGo ms (x ++ aHat :: euro :: y)).1 := by
        rw [mojGo, if_neg h0]
      rw [hgo]
      exact ih htail x y hy

/-- C5: whenever the text contains the bare corrupted pair U+00E2 U+20AC
immediately followed by end-of-text, whitespace, or a closing character,
`sanitize` performs the truncated-quote repair: the change log carries the
entry for it with the total replacement count (at least 1), and a proper
double quotation mark appears in the output. -/
theorem sanitize_truncated_quote (x y : List Char) (hy : trigB y = true) :
    ∃ n, 1 ≤ n ∧
      List.lookup truncLabel (sanitize (x ++ aHat :: euro :: y)).2 = some n ∧
      dquote ∈ (sanitize (x ++ aHat :: euro :: y)).1 := by
  obtain ⟨x1, y1, he1, ht1⟩ := spaceGo_pres SPACE_SUBS (by decide) x y hy
  have h1 : (stage1 (x ++ aHat :: euro :: y)).1 = x1 ++ aHat :: euro :: y1 := he1
  obtain ⟨x2, y2, he2, ht2⟩ := removeGo_pres REMOVE_CHARS (by decide) x1 y1 ht1
  have h2 : (stage2 (stage1 (x ++ aHat :: euro :: y)).1).1 = x2 ++ aHat :: euro :: y2 := by
    rw [h1]
    exact he2
  obtain ⟨x3, y3, he3, ht3⟩ := mojGo_pres MOJIBAKE_REMAP (by decide) x2 y2 ht2
  have h3 : (stage3 (stage2 (stage1 (x ++ aHat :: euro :: y)).1).1).1 =
      x3 ++ aHat :: euro :: y3 := by
    rw [h2]
    exact he3
  have hpos : 1 ≤ (subnTrunc (stage3 (stage2 (stage1 (x ++ aHat :: euro :: y)).1).1).1).2 := by
    rw [h3]
    exact subnTrunc_pos x3.length x3 (le_refl _) y3 ht3
  have h4a : stage4a (stage3 (stage2 (stage1 (x ++ aHat :: euro :: y)).1).1).1 =
      ((subnTrunc (stage3 (stage2 (stage1 (x ++ aHat :: euro :: y)).1).1).1).1,
       [(truncLabel, (subnTrunc (stage3 (stage2 (stage1 (x ++ aHat :: euro :: y)).1).1).1).2)]) := by
    unfold stage4a
    rw [if_pos (by omega)]
  refine ⟨(subnTrunc (stage3 (stage2 (stage1 (x ++ aHat :: euro :: y)).1).1).1).2, hpos, ?_, ?_⟩
  · have hlab1 : ∀ e ∈ (stage1 (x ++ aHat :: euro :: y)).2, (truncLabel == e.1) = false := by
      intro e he
      obtain ⟨p, hp, hpe⟩ := spaceGo_labels _ _ e he
      rw [hpe]
      exact (show ∀ p ∈ SPACE_SUBS, (truncLabel == "replaced " ++ hexStr p.1.toNat) = false
        by decide) p hp
    have hlab2 : ∀ e ∈ (stage2 (stage1 (x ++ aHat :: euro :: y)).1).2,
        (truncLabel == e.1) = false := by
      intro e he
      obtain ⟨r, hr, hre⟩ := removeGo_labels _ _ e he
      rw [hre]
      exact (show ∀ r ∈ REMOVE_CHARS, (truncLabel == "removed " ++ hexStr r.toNat) = false
        by decide) r hr
    have hlab3 : ∀ e ∈ (stage3 (stage2 (stage1 (x ++ aHat :: euro :: y)).1).1).2,
        (truncLabel == e.1) = false := by
      intro e he
      obtain ⟨m, hm, hme⟩ := mojGo_labels _ _ e he
      rw [hme]
      exact (show ∀ m ∈ MOJIBAKE_REMAP, (truncLabel == m.label) = false by decide) m hm
    rw [sanitize_decomp, h4a]
    dsimp only
    simp only [List.append_assoc]
    rw [lookup_append_none _ _ _ hlab1, lookup_append_none _ _ _ hlab2,
      lookup_append_none _ _ _ hlab3, List.singleton_append]
    exact lookup_cons_self _ _ _
  · rw [sanitize_decomp]
    have hmem4 : dquote ∈ (stage4a (stage3 (stage2 (stage1 (x ++ aHat :: euro :: y)).1).1).1).1 := by
      rw [h4a]
      exact subnTrunc_mem_dquote _ hpos
    have hmem5 : dquote ∈ (stage4b (stage4a (stage3 (stage2 (stage1
        (x ++ aHat :: euro :: y)).1).1).1).1).1 :=
      strayScan_mem_keep _ _ hmem4 (by decide)
    exact mem_lineStage_of _ _ hmem5 (by decide) (by decide)

/-- Witness for C5 at the concrete input x + corrupted pair + space + y. -/
theorem sanitize_truncated_quote_witness :
    trigB [' ', 'y'] = true ∧
      ∃ n, 1 ≤ n ∧
        List.lookup truncLabel (sanitize (['x'] ++ aHat :: euro :: [' ', 'y'])).2 = some n ∧
        dquote ∈ (sanitize (['x'] ++ aHat :: euro :: [' ', 'y'])).1 :=
  ⟨by decide, sanitize_truncated_quote ['x'] [' ', 'y'] (by decide)⟩

end SubScrub
